import Mathlib

/-!
Verification of the DID syntax core of EncrypteDL/IDChain (Backend/did.go and
Backend/url.go), as a shallow embedding over byte lists.

Go strings are byte sequences; we model them as `List Nat` with each byte a
value below 256 (inputs outside that range are rejected by the character-class
checks exactly as any other non-member byte would be).  Index-based Go loops
are translated to structural recursion over the remaining suffix of the input,
with the absolute byte index threaded through for error reporting; the slice
expressions of the source (`s[a:b]`) are rendered with `List.drop`/`List.take`
or with an accumulator that equals the slice under the loop invariant.
-/

set_option linter.unusedVariables false

/-- A Go string: a sequence of bytes (each < 256 in any real execution). -/
abbrev GoStr := List Nat

/-- `DID` from did.go: method name and decoded method-specific identifier. -/
structure DID where
  Method : GoStr
  SpecID : GoStr
deriving DecidableEq, Repr

/-- `SyntaxError` from did.go: original input `S` and byte index `I` of the
first illegal byte (`len(S)` for unexpected end of input).  The source also
documents a `-1` sentinel for an unknown location; no code path constructs it,
so the index is modelled as `Nat`. -/
structure SynErr where
  S : GoStr
  I : Nat
deriving DecidableEq, Repr

/-- The `"did:"` scheme bytes (`const prefix` in did.go). -/
def didScheme : GoStr := [100, 105, 100, 58]

/-- `len(s) >= len(prefix) && s[:len(prefix)] == prefix`. -/
def hasScheme (s : GoStr) : Bool := s.take 4 == didScheme

/-- digit `'0'..'9'`. -/
def isDigitB (c : Nat) : Bool := decide (48 ≤ c ∧ c ≤ 57)

/-- lowercase letter `'a'..'z'`. -/
def isLowerB (c : Nat) : Bool := decide (97 ≤ c ∧ c ≤ 122)

/-- uppercase letter `'A'..'Z'`. -/
def isUpperB (c : Nat) : Bool := decide (65 ≤ c ∧ c ≤ 90)

/-- `method-char`: the case list of `readMethodName` — digit or `'a'..'z'`. -/
def isMethodChar (c : Nat) : Bool := isDigitB c || isLowerB c

/-- `idchar` excluding pct-encoded: the case list of the spec-ID loops in
`Parse` — digit, letter (both cases), `'.'`, `'-'`, `'_'`. -/
def isIdChar (c : Nat) : Bool :=
  isDigitB c || isLowerB c || isUpperB c ||
    decide (c = 46) || decide (c = 45) || decide (c = 95)

/-- The case list of `DID.EqualString`'s spec-ID switch.  Note the source
omits the uppercase letters here (unlike `Parse` and `DID.String`). -/
def isLowerIdChar (c : Nat) : Bool :=
  isDigitB c || isLowerB c ||
    decide (c = 46) || decide (c = 45) || decide (c = 95)

/-- RFC 3986 sub-delims: `! $ & ' ( ) * + , ; =`. -/
def isSubDelim (c : Nat) : Bool :=
  decide (c = 33) || decide (c = 36) || decide (c = 38) || decide (c = 39) ||
    decide (c = 40) || decide (c = 41) || decide (c = 42) || decide (c = 43) ||
    decide (c = 44) || decide (c = 59) || decide (c = 61)

/-- RFC 3986 unreserved: letters, digits, `- . _ ~`. -/
def isUnreserved (c : Nat) : Bool :=
  isDigitB c || isLowerB c || isUpperB c ||
    decide (c = 45) || decide (c = 46) || decide (c = 95) || decide (c = 126)

/-- The case list of the path loop in `ParseURL`: unreserved, sub-delims,
`':'`, `'@'`, `'/'`. -/
def isPathChar (c : Nat) : Bool :=
  isUnreserved c || isSubDelim c || decide (c = 58) || decide (c = 64) ||
    decide (c = 47)

/-- The case list of the query and fragment loops (and of
`escapedWithLeadEqual`): the path list plus `'?'`. -/
def isQueryChar (c : Nat) : Bool := isPathChar c || decide (c = 63)

/-- One hex digit `[0-9A-Fa-f]` to its value, as in `parseHex`'s switches. -/
def hexNibble (c : Nat) : Option Nat :=
  if 48 ≤ c ∧ c ≤ 57 then some (c - 48)
  else if 65 ≤ c ∧ c ≤ 70 then some (c - 65 + 10)
  else if 97 ≤ c ∧ c ≤ 102 then some (c - 97 + 10)
  else none

/-- `hexTable` from url.go: nibble to uppercase hex digit. -/
def hexTableList : GoStr :=
  [48, 49, 50, 51, 52, 53, 54, 55, 56, 57, 65, 66, 67, 68, 69, 70]

/-- Indexing into `hexTable`. -/
def hexTableF (n : Nat) : Nat := hexTableList.getD n 0

/-- `parseHex(s, i)` from url.go: interpret two hex digits at `i` and `i+1`.
The first failing position is reported: index `i` when `i` is out of bounds or
not hex, index `i+1` when the second digit is out of bounds or not hex. -/
def parseHex (s : GoStr) (i : Nat) : Except SynErr Nat :=
  if i ≥ s.length then .error ⟨s, i⟩
  else
    match hexNibble (s.getD i 0) with
    | none => .error ⟨s, i⟩
    | some hi =>
      if i + 1 ≥ s.length then .error ⟨s, i + 1⟩
      else
        match hexNibble (s.getD (i + 1) 0) with
        | none => .error ⟨s, i + 1⟩
        | some lo => .ok (hi * 16 + lo)

/-- `strings.IndexAny` specialised to byte sets: first index in `s` holding a
byte from `cs`, scanning from absolute index `i` over the suffix `rest`. -/
def indexAnyAux (cs : List Nat) : Nat → GoStr → Option Nat
  | _, [] => none
  | i, c :: rest => if cs.contains c then some i else indexAnyAux cs (i + 1) rest

/-- `strings.IndexAny(s, cs)` (with `none` for Go's `-1`). -/
def indexAny (s : GoStr) (cs : List Nat) : Option Nat := indexAnyAux cs 0 s

/-- The unrolled `for i := range prefix` loop of `Parse`'s scheme check: the
first position `i < 4` where `s` ends or differs from `"did:"`. -/
def prefixDiverge (s : GoStr) : Option Nat :=
  if s.length ≤ 0 || didScheme.getD 0 0 != s.getD 0 0 then some 0
  else if s.length ≤ 1 || didScheme.getD 1 0 != s.getD 1 0 then some 1
  else if s.length ≤ 2 || didScheme.getD 2 0 != s.getD 2 0 then some 2
  else if s.length ≤ 3 || didScheme.getD 3 0 != s.getD 3 0 then some 3
  else none

/-- The scheme-check block at the top of `Parse`: `none` means fall through to
the method scan (which the source also does, vacuously, when the prefix loop
finds no mismatch). -/
def schemeCheck (s : GoStr) : Option SynErr :=
  if hasScheme s then none
  else
    match indexAny s [58, 47, 63, 35] with
    | some i =>
      if s.getD i 0 == 58 then some ⟨s, i⟩
      else
        match prefixDiverge s with
        | some j => some ⟨s, j⟩
        | none => none
    | none =>
      match prefixDiverge s with
      | some j => some ⟨s, j⟩
      | none => none

/-- The loop of `readMethodName`, scanning `rest = s.drop i` from absolute
index `i` (starting at `len(prefix) = 4`).  On the separator `':'` at index
`i` the method is the slice `s[4:i]`. -/
def readMethodNameAux (s : GoStr) : Nat → GoStr → Except SynErr GoStr
  | _, [] => .error ⟨s, s.length⟩
  | i, c :: rest =>
    if isMethodChar c then readMethodNameAux s (i + 1) rest
    else if c == 58 then
      if i = 4 then .error ⟨s, 4⟩
      else .ok ((s.drop 4).take (i - 4))
    else .error ⟨s, i⟩

/-- `readMethodName(s)` from did.go. -/
def readMethodName (s : GoStr) : Except SynErr GoStr :=
  readMethodNameAux s 4 (s.drop 4)

/-- The escape-decoding loop of `Parse` (the phase after the first `'%'`).
`b` is the builder, `rest = s.drop i`.  The `parseHex(s, i+1)` call is inlined
over the suffix; its error indices (`i+1` for a bad or missing first digit,
`i+2` for the second) match `parseHex` on `s`. -/
def escapeScan (s : GoStr) : Nat → GoStr → GoStr → Except SynErr GoStr
  | _, b, [] => .ok b
  | i, b, c :: rest =>
    if c == 58 then
      -- colon not allowed as the last character of s
      if rest == [] then .error ⟨s, i⟩
      else escapeScan s (i + 1) (b ++ [c]) rest
    else if isIdChar c then escapeScan s (i + 1) (b ++ [c]) rest
    else if c == 37 then
      match rest with
      | [] => .error ⟨s, i + 1⟩
      | [h1] =>
        match hexNibble h1 with
        | none => .error ⟨s, i + 1⟩
        | some _ => .error ⟨s, i + 2⟩
      | h1 :: h2 :: rest2 =>
        match hexNibble h1 with
        | none => .error ⟨s, i + 1⟩
        | some hi =>
          match hexNibble h2 with
          | none => .error ⟨s, i + 2⟩
          | some lo => escapeScan s (i + 3) (b ++ [hi * 16 + lo]) rest2
    else .error ⟨s, i⟩

/-- The `NoEscapes` loop of `Parse`: scan `rest = s.drop i` from index `i`;
reaching the end yields the spec-ID as the direct slice `s[start:]`; the first
`'%'` switches to `escapeScan` with the builder seeded with `s[start:i]`. -/
def noEscapes (s : GoStr) (method : GoStr) (start : Nat) :
    Nat → GoStr → Except SynErr DID
  | _, [] => .ok ⟨method, s.drop start⟩
  | i, c :: rest =>
    if c == 58 then
      if rest == [] then .error ⟨s, i⟩
      else noEscapes s method start (i + 1) rest
    else if isIdChar c then noEscapes s method start (i + 1) rest
    else if c == 37 then
      match escapeScan s i ((s.drop start).take (i - start)) (c :: rest) with
      | .error e => .error e
      | .ok spec => .ok ⟨method, spec⟩
    else .error ⟨s, i⟩

/-- `Parse(s)` from did.go. -/
def Parse (s : GoStr) : Except SynErr DID :=
  match schemeCheck s with
  | some e => .error e
  | none =>
    match readMethodName s with
    | .error e => .error e
    | .ok method =>
      let specIDStart := 4 + method.length + 1
      if specIDStart ≥ s.length then .error ⟨s, specIDStart⟩
      else noEscapes s method specIDStart specIDStart (s.drop specIDStart)

/-- `DID.Equal` from did.go: both operands must be valid (the receiver's
method is re-validated), then plain structural equality. -/
def DID.Equal (d o : DID) : Bool :=
  if d.Method == [] || d.SpecID == [] then false
  else d.Method.all isMethodChar && (o == d)

/-- The spec-ID comparison loop of `DID.EqualString`, over the remaining
target bytes (`d.SpecID[j:]`) and remaining source bytes (`s[i:]`).  The
source's `j == len(d.SpecID)-1` test is `specRest = []` here, its final
`return i >= len(s)` is `sRest = []`, and `parseHex(s, i+1)` is inlined (the
error is discarded by the source, so only success and the value matter). -/
def eqStrLoop : GoStr → GoStr → Bool
  | [], sRest => sRest == []
  | _ :: _, [] => false
  | c :: specRest, a :: sRest =>
    if isLowerIdChar a then a == c && eqStrLoop specRest sRest
    else if a == 58 then
      (a == c && !(specRest == [])) && eqStrLoop specRest sRest
    else if a == 37 then
      match sRest with
      | h1 :: h2 :: sRest2 =>
        (match hexNibble h1, hexNibble h2 with
         | some hi, some lo => hi * 16 + lo == c && eqStrLoop specRest sRest2
         | _, _ => false)
      | _ => false
    else false

/-- `DID.EqualString` from did.go. -/
def DID.EqualString (d : DID) (s : GoStr) : Bool :=
  if !(hasScheme s) then false
  else
    match readMethodName s with
    | .error _ => false
    | .ok method =>
      if method != d.Method then false
      else if d.SpecID == [] then false
      else eqStrLoop d.SpecID (s.drop (4 + method.length + 1))

/-- One output chunk of `DID.String`'s spec-ID writer: an `idchar` passes
through, anything else becomes `%HH` with uppercase hex. -/
def escapeSpecChar (c : Nat) : GoStr :=
  if isIdChar c then [c] else [37, hexTableF (c / 16), hexTableF (c % 16)]

/-- The percent-encoded spec-ID as written by `DID.String`. -/
def specEncode (spec : GoStr) : GoStr := spec.flatMap escapeSpecChar

/-- `DID.String` from did.go.  The source's `escapeN == 0` fast path returns
`prefix + method + ":" + specID`, which equals the builder output when no
byte needs escaping. -/
def DID.String (d : DID) : GoStr :=
  if d.Method == [] && d.SpecID == [] then []
  else didScheme ++ d.Method ++ [58] ++ specEncode d.SpecID

/-- The outcome classification inside `SyntaxError.Error` (did.go).  The
final `fmt.Sprintf` rendering is kept symbolic: `illegalByte` carries the
offending byte and the 1-based byte number fed to the format string. -/
inductive ErrDesc where
  | emptyInput
  | endIncomplete
  | colonFirstSpecial
  | illegalByte (c : Nat) (byteNo : Nat)
deriving DecidableEq, Repr

/-- The branch taken by `SyntaxError.Error`.  `e.I < 0` cannot occur (no code
path builds a negative index), so the `"reason unkown"` branch is absent. -/
def SynErr.descCase (e : SynErr) : ErrDesc :=
  if e.S == [] then .emptyInput
  else if e.I ≥ e.S.length then .endIncomplete
  else if e.S.getD e.I 0 == 58 &&
      (match indexAny e.S [58, 47, 63, 35] with
       | some j => decide (j ≥ e.I)
       | none => false) then .colonFirstSpecial
  else .illegalByte (e.S.getD e.I 0) (e.I + 1)

/-- The literal description bytes the source produces in each branch, when
that text is a fixed string: `"end imcompltet"` [sic] and the empty
description of the colon branch.  `emptyInput` short-circuits the whole
message and `illegalByte` goes through `fmt.Sprintf`, so neither is a fixed
description string. -/
def ErrDesc.text : ErrDesc → Option GoStr
  | .endIncomplete =>
      -- "end imcompltet"
      some [101, 110, 100, 32, 105, 109, 99, 111, 109, 112, 108, 116, 101, 116]
  | .colonFirstSpecial => some []
  | .emptyInput => none
  | .illegalByte _ _ => none

/-- The claim's (and the tests') expected description `"end incomplete"`. -/
def endIncompleteClaimed : GoStr :=
  [101, 110, 100, 32, 105, 110, 99, 111, 109, 112, 108, 101, 116, 101]

/-- Equality of `Except` results is decidable, so concrete runs of the
parsers can be checked by evaluation. -/
instance {ε α : Type} [DecidableEq ε] [DecidableEq α] :
    DecidableEq (Except ε α) := fun x y =>
  match x, y with
  | .ok a, .ok b => decidable_of_iff (a = b) (by simp)
  | .error e, .error f => decidable_of_iff (e = f) (by simp)
  | .ok _, .error _ => isFalse (by simp)
  | .error _, .ok _ => isFalse (by simp)

/-- `URL` from url.go: an embedded `DID` (zero when relative) plus the raw
path, query and fragment slices. -/
structure URL where
  did : DID
  RawPath : GoStr
  RawQuery : GoStr
  RawFragment : GoStr
deriving DecidableEq, Repr

/-- `URL.IsRelative` from url.go. -/
def URL.IsRelative (u : URL) : Bool :=
  u.did.Method == [] && u.did.SpecID == []

/-- The relative-reference first-segment check of `ParseURL`: a `':'` before
any `'/'`, `'?'`, `'#'` is an error at the colon's index. -/
def relColonCheck (s : GoStr) : Nat → GoStr → Option SynErr
  | _, [] => none
  | i, c :: rest =>
    if c == 58 then some ⟨s, i⟩
    else if c == 47 || c == 63 || c == 35 then none
    else relColonCheck s (i + 1) rest

/-- The fragment loop of `ParseURL` (RFC 3986 §3.5): `acc` accumulates the
raw fragment (seeded with the leading `'#'`), `rest = s.drop i`. -/
def fragLoop (s : GoStr) (d : DID) (rp rq : GoStr) :
    Nat → GoStr → GoStr → Except SynErr URL
  | _, acc, [] => .ok ⟨d, rp, rq, acc⟩
  | i, acc, c :: rest =>
    if isQueryChar c then fragLoop s d rp rq (i + 1) (acc ++ [c]) rest
    else if c == 37 then
      match rest with
      | [] => .error ⟨s, i + 1⟩
      | [h1] =>
        match hexNibble h1 with
        | none => .error ⟨s, i + 1⟩
        | some _ => .error ⟨s, i + 2⟩
      | h1 :: h2 :: rest2 =>
        match hexNibble h1 with
        | none => .error ⟨s, i + 1⟩
        | some _ =>
          match hexNibble h2 with
          | none => .error ⟨s, i + 2⟩
          | some _ => fragLoop s d rp rq (i + 3) (acc ++ [37, h1, h2]) rest2
    else .error ⟨s, i⟩

/-- The query loop of `ParseURL` (RFC 3986 §3.4): a `'#'` closes the raw
query and opens the fragment. -/
def queryLoop (s : GoStr) (d : DID) (rp : GoStr) :
    Nat → GoStr → GoStr → Except SynErr URL
  | _, acc, [] => .ok ⟨d, rp, acc, []⟩
  | i, acc, c :: rest =>
    if c == 35 then fragLoop s d rp acc (i + 1) [35] rest
    else if isQueryChar c then queryLoop s d rp (i + 1) (acc ++ [c]) rest
    else if c == 37 then
      match rest with
      | [] => .error ⟨s, i + 1⟩
      | [h1] =>
        match hexNibble h1 with
        | none => .error ⟨s, i + 1⟩
        | some _ => .error ⟨s, i + 2⟩
      | h1 :: h2 :: rest2 =>
        match hexNibble h1 with
        | none => .error ⟨s, i + 1⟩
        | some _ =>
          match hexNibble h2 with
          | none => .error ⟨s, i + 2⟩
          | some _ => queryLoop s d rp (i + 3) (acc ++ [37, h1, h2]) rest2
    else .error ⟨s, i⟩

/-- The path loop of `ParseURL` (RFC 3986 §3.3): `acc` accumulates the raw
path (equal to the source's slice `s[offset:i]`); a `'?'` or `'#'` closes it
and opens the query or fragment component. -/
def pathLoop (s : GoStr) (d : DID) :
    Nat → GoStr → GoStr → Except SynErr URL
  | _, acc, [] => .ok ⟨d, acc, [], []⟩
  | i, acc, c :: rest =>
    if isPathChar c then pathLoop s d (i + 1) (acc ++ [c]) rest
    else if c == 37 then
      match rest with
      | [] => .error ⟨s, i + 1⟩
      | [h1] =>
        match hexNibble h1 with
        | none => .error ⟨s, i + 1⟩
        | some _ => .error ⟨s, i + 2⟩
      | h1 :: h2 :: rest2 =>
        match hexNibble h1 with
        | none => .error ⟨s, i + 1⟩
        | some _ =>
          match hexNibble h2 with
          | none => .error ⟨s, i + 2⟩
          | some _ => pathLoop s d (i + 3) (acc ++ [37, h1, h2]) rest2
    else if c == 63 then queryLoop s d acc (i + 1) [63] rest
    else if c == 35 then fragLoop s d acc [] (i + 1) [35] rest
    else .error ⟨s, i⟩

/-- `ParseURL(s)` from url.go.  In the relative branch the loop variable of
the colon check is shadowed, so the path scan always starts at offset 0
there; in the scheme branch the path scan starts at the first `/?#`. -/
def ParseURL (s : GoStr) : Except SynErr URL :=
  if s == [] then .error ⟨[], 0⟩
  else if hasScheme s then
    match indexAny s [47, 63, 35] with
    | none =>
      match Parse s with
      | .error e => .error e
      | .ok d => .ok ⟨d, [], [], []⟩
    | some i =>
      match Parse (s.take i) with
      | .error e => .error ⟨s, e.I⟩   -- err.(*SyntaxError).S = s
      | .ok d => pathLoop s d i [] (s.drop i)
  else
    match relColonCheck s 0 s with
    | some e => .error e
    | none => pathLoop s ⟨[], []⟩ 0 [] s

/-- `URL.String` from url.go. -/
def URL.String (u : URL) : GoStr :=
  u.did.String ++ u.RawPath ++ u.RawQuery ++ u.RawFragment

/-- One octet step of the right-hand operand in `escapedWithLeadEqual`:
either a literal query/fragment byte, or a `%HH` escape (the source's
`parseHex(b, 1)` on the local remainder, inlined). -/
def escScanStep : GoStr → Option (Nat × GoStr)
  | [] => none
  | c :: rest =>
    if isQueryChar c then some (c, rest)
    else if c == 37 then
      match rest with
      | [] => none
      | [_] => none
      | h1 :: h2 :: rest2 =>
        match hexNibble h1 with
        | none => none
        | some hi =>
          match hexNibble h2 with
          | none => none
          | some lo => some (hi * 16 + lo, rest2)
    else none

/-- The continuation of one comparison step: the right-hand operand's
decoded octet must match `ac` and the loop continues on the remainders
(`escapedWithLeadEqual` returns false when the right operand's switch finds
an invalid byte or escape). -/
def escStepK (ac : Nat) (r : Option (Nat × GoStr)) (k : GoStr → Bool) : Bool :=
  match r with
  | none => false
  | some (bc, b2) => ac == bc && k b2

/-- The octet-comparison loop of `escapedWithLeadEqual`.  The left operand's
switch is unfolded for structural recursion; the right operand steps through
`escScanStep` (the same switch) inside `escStepK`. -/
def escLoop : GoStr → GoStr → Bool
  | [], b => b == []
  | c :: a, b =>
    if b == [] then false
    else if isQueryChar c then escStepK c (escScanStep b) fun b2 => escLoop a b2
    else if c == 37 then
      match a with
      | [] => false
      | [_] => false
      | h1 :: h2 :: a2 =>
        match hexNibble h1 with
        | none => false
        | some hi =>
          match hexNibble h2 with
          | none => false
          | some lo =>
            escStepK (hi * 16 + lo) (escScanStep b) fun b2 => escLoop a2 b2
    else false

/-- `escapedWithLeadEqual(a, b, lead)` from url.go.  Note the `a == b` fast
path precedes all validity checking. -/
def escapedWithLeadEqual (a b : GoStr) (lead : Nat) : Bool :=
  if a == b then true
  else if a == [] || b == [] then false
  else if a.headD 0 != lead || b.headD 0 != lead then false
  else escLoop a.tail b.tail

/-- One octet step of the right-hand operand in `pathEqual`: the literal
path-byte class, or `%HH` with the escaped-separator bit (`escSep` is true
exactly when the escape decodes to `'/'`). -/
def pathScanStep : GoStr → Option (Nat × Bool × GoStr)
  | [] => none
  | c :: rest =>
    if isPathChar c then some (c, false, rest)
    else if c == 37 then
      match rest with
      | [] => none
      | [_] => none
      | h1 :: h2 :: rest2 =>
        match hexNibble h1 with
        | none => none
        | some hi =>
          match hexNibble h2 with
          | none => none
          | some lo => some (hi * 16 + lo, hi * 16 + lo == 47, rest2)
    else none

/-- The continuation of one path-comparison step: octet and
escaped-separator bit must both match, then the loop continues. -/
def pathStepK (ac : Nat) (aEsc : Bool) (r : Option (Nat × Bool × GoStr))
    (k : GoStr → Bool) : Bool :=
  match r with
  | none => false
  | some (bc, bEsc, b2) => (ac == bc && aEsc == bEsc) && k b2

/-- The octet-comparison loop of `pathEqual`: octets and escaped-separator
bits must both agree.  A literal byte carries `escSep = false`; an escape
carries `escSep = (octet = 47)`. -/
def pathLoopEq : GoStr → GoStr → Bool
  | [], b => b == []
  | c :: a, b =>
    if b == [] then false
    else if isPathChar c then
      pathStepK c false (pathScanStep b) fun b2 => pathLoopEq a b2
    else if c == 37 then
      match a with
      | [] => false
      | [_] => false
      | h1 :: h2 :: a2 =>
        match hexNibble h1 with
        | none => false
        | some hi =>
          match hexNibble h2 with
          | none => false
          | some lo =>
            pathStepK (hi * 16 + lo) (decide (hi * 16 + lo = 47))
              (pathScanStep b) fun b2 => pathLoopEq a2 b2
    else false

/-- The backtracking loop of Go `path.Clean`'s `".."` case: starting from
`w = out.length - 1`, decrement while `w > dotdot` and the byte at `w` is not
`'/'`; the output is then truncated to `w`. -/
def btLoop (out : GoStr) (dotdot : Nat) : Nat → Nat
  | 0 => 0
  | w + 1 =>
    if w + 1 > dotdot && out.getD (w + 1) 0 != 47 then btLoop out dotdot w
    else w + 1

/-- The main loop of Go `path.Clean` (the `lazybuf` is a plain list here,
with `out.w` its length).  `fuel` bounds the iteration count; every pass
consumes at least one input byte, so `fuel = rest.length` at the call site
makes the bound unreachable. -/
def cleanLoop (rooted : Bool) : Nat → Nat → GoStr → GoStr → GoStr
  | 0, _, out, _ => out
  | _, _, out, [] => out
  | fuel + 1, dotdot, out, c :: rest =>
    if c == 47 then
      -- empty path element
      cleanLoop rooted fuel dotdot out rest
    else if c == 46 && (rest == [] || rest.headD 0 == 47) then
      -- "." element
      cleanLoop rooted fuel dotdot out rest
    else if c == 46 && rest.headD 0 == 46 &&
        (rest.tail == [] || rest.tail.headD 0 == 47) then
      -- ".." element
      if out.length > dotdot then
        cleanLoop rooted fuel dotdot
          (out.take (btLoop out dotdot (out.length - 1))) rest.tail
      else if !rooted then
        cleanLoop rooted fuel
          (((if out.length > 0 then out ++ [47] else out) ++ [46, 46]).length)
          ((if out.length > 0 then out ++ [47] else out) ++ [46, 46]) rest.tail
      else cleanLoop rooted fuel dotdot out rest.tail
    else
      -- real path element: copy up to the next '/'
      cleanLoop rooted fuel dotdot
        (((if (rooted && out.length != 1) || (!rooted && out.length != 0)
           then out ++ [47] else out)) ++ (c :: rest).takeWhile (· != 47))
        ((c :: rest).dropWhile (· != 47))

/-- Go `path.Clean`. -/
def pathClean (p : GoStr) : GoStr :=
  if p == [] then [46]
  else
    let rooted := p.headD 0 == 47
    let out :=
      if rooted then cleanLoop true p.length 1 [47] (p.drop 1)
      else cleanLoop false p.length 0 [] p
    if out == [] then [46] else out

/-- `pathEqual(a, b)` from url.go.  `path.Join("/", a)` is
`path.Clean("/" + "/" + a)` for non-empty `a`. -/
def pathEqual (a b : GoStr) : Bool :=
  if a == b then true
  else if a == [] || b == [] then false
  else
    pathLoopEq ((pathClean (47 :: 47 :: a)).drop 1)
      ((pathClean (47 :: 47 :: b)).drop 1)

/-- `URL.Equal` from url.go. -/
def URL.Equal (u o : URL) : Bool :=
  !(o.IsRelative) && o.did.Equal u.did &&
    escapedWithLeadEqual o.RawFragment u.RawFragment 35 &&
    escapedWithLeadEqual o.RawQuery u.RawQuery 63 &&
    pathEqual o.RawPath u.RawPath

/-- `URL.EqualString` from url.go. -/
def URL.EqualString (u : URL) (s : GoStr) : Bool :=
  match ParseURL s with
  | .error _ => false
  | .ok o => u.Equal o

/-- `URLEqual(s1, s2)` from url.go. -/
def URLEqual (s1 s2 : GoStr) : Bool :=
  match ParseURL s1 with
  | .error _ => false
  | .ok u1 => u1.EqualString s2

/-- The loop of `bestEffortDecode` from url.go: decode every valid `%HH`;
malformed escapes pass through verbatim (the `'%'` passes and scanning
resumes at the next byte).  `fuel` bounds the iteration count for structural
recursion; every pass consumes at least one input byte, so `fuel = s.length`
at the call site makes the zero case unreachable. -/
def bestEffortDecodeF : Nat → GoStr → GoStr
  | 0, s => s
  | _, [] => []
  | fuel + 1, c :: rest =>
    if c == 37 then
      match rest with
      | h1 :: h2 :: rest2 =>
        (match hexNibble h1, hexNibble h2 with
         | some hi, some lo => (hi * 16 + lo) :: bestEffortDecodeF fuel rest2
         | _, _ => c :: bestEffortDecodeF fuel (h1 :: h2 :: rest2))
      | _ => c :: bestEffortDecodeF fuel rest
    else c :: bestEffortDecodeF fuel rest

/-- `bestEffortDecode` from url.go. -/
def bestEffortDecode (s : GoStr) : GoStr := bestEffortDecodeF s.length s

/-- The split loop of `URL.PathSegments`: `cur` is the raw bytes of the
segment being scanned; each `'/'` emits `bestEffortDecode cur`; a non-empty
final chunk is emitted as well. -/
def splitSegsAux : GoStr → GoStr → List GoStr
  | cur, [] => if cur == [] then [] else [bestEffortDecode cur]
  | cur, c :: rest =>
    if c == 47 then bestEffortDecode cur :: splitSegsAux [] rest
    else splitSegsAux (cur ++ [c]) rest

/-- `URL.PathSegments` from url.go (Go's `nil` and `[]string{}` both become
`[]`). -/
def URL.PathSegments (u : URL) : List GoStr :=
  if u.RawPath == [] then []
  else
    splitSegsAux []
      (if u.RawPath.headD 0 == 47 then u.RawPath.drop 1 else u.RawPath)

/-- Modelled from Go's standard library: `net/url.PathEscape`'s per-byte
escape decision (`shouldEscape` with `encodePathSegment`): alphanumerics and
`- _ . ~` stay, and of `$ & + , / : ; = ? @` exactly `/ ; , ?` are escaped;
everything else is escaped. -/
def shouldEscapeSeg (c : Nat) : Bool :=
  if isDigitB c || isLowerB c || isUpperB c then false
  else if c == 45 || c == 95 || c == 46 || c == 126 then false
  else if c == 36 || c == 38 || c == 43 || c == 58 || c == 61 || c == 64 then
    false
  else true

/-- Modelled from Go's standard library: `net/url.PathEscape` (uppercase
hex). -/
def pathEscape (seg : GoStr) : GoStr :=
  seg.flatMap fun c =>
    if shouldEscapeSeg c then [37, hexTableF (c / 16), hexTableF (c % 16)]
    else [c]

/-- `URL.SetPathSegments` from url.go: the new raw path, with a trailing
`'/'` when the last segment is empty. -/
def URL.SetPathSegments (u : URL) (segs : List GoStr) : URL :=
  if segs == [] then { u with RawPath := [] }
  else
    { u with
      RawPath :=
        (segs.flatMap fun t => 47 :: pathEscape t) ++
          (if segs.getLast? == some [] then [47] else []) }

/-- Reference decoder for a query/fragment remainder: the octet sequence the
comparison loop of `escapedWithLeadEqual` walks, or `none` when the remainder
holds a byte outside the class or an invalid escape. -/
def qfDecode : GoStr → Option GoStr
  | [] => some []
  | c :: rest =>
    if isQueryChar c then (qfDecode rest).map fun xs => c :: xs
    else if c == 37 then
      match rest with
      | [] => none
      | [_] => none
      | h1 :: h2 :: rest2 =>
        match hexNibble h1 with
        | none => none
        | some hi =>
          match hexNibble h2 with
          | none => none
          | some lo => (qfDecode rest2).map fun xs => (hi * 16 + lo) :: xs
    else none

/-- Validity of a raw path for the path loop of `ParseURL`: every byte is a
path byte or part of a well-formed `%HH` escape. -/
def pathValid : GoStr → Bool
  | [] => true
  | c :: rest =>
    if isPathChar c then pathValid rest
    else if c == 37 then
      match rest with
      | [] => false
      | [_] => false
      | h1 :: h2 :: rest2 =>
        match hexNibble h1 with
        | none => false
        | some _ =>
          match hexNibble h2 with
          | none => false
          | some _ => pathValid rest2
    else false

/-- Validity of a raw query/fragment remainder for the query and fragment
loops of `ParseURL`. -/
def qfValid : GoStr → Bool
  | [] => true
  | c :: rest =>
    if isQueryChar c then qfValid rest
    else if c == 37 then
      match rest with
      | [] => false
      | [_] => false
      | h1 :: h2 :: rest2 =>
        match hexNibble h1 with
        | none => false
        | some _ =>
          match hexNibble h2 with
          | none => false
          | some _ => qfValid rest2
    else false

/-- Spec-side reading of "`s` holds a hex digit `[0-9A-Fa-f]` at position
`i`"; stated with explicit ranges, independently of `hexNibble`. -/
def hexDigitAt (s : GoStr) (i : Nat) : Prop :=
  i < s.length ∧
    ((48 ≤ s.getD i 0 ∧ s.getD i 0 ≤ 57) ∨
     (65 ≤ s.getD i 0 ∧ s.getD i 0 ≤ 70) ∨
     (97 ≤ s.getD i 0 ∧ s.getD i 0 ≤ 102))

instance (s : GoStr) (i : Nat) : Decidable (hexDigitAt s i) := by
  unfold hexDigitAt; infer_instance

/-- Spec-side value of a hex digit. -/
def hexVal (c : Nat) : Nat :=
  if c ≤ 57 then c - 48 else if c ≤ 70 then c - 65 + 10 else c - 97 + 10

-- Byte-list constants for the concrete inputs named by the claims.

/-- "did:a:b/x/./y" -/
def strDotSeg1 : GoStr := [100, 105, 100, 58, 97, 58, 98, 47, 120, 47, 46, 47, 121]

/-- "did:a:b/x/y" -/
def strDotSeg2 : GoStr := [100, 105, 100, 58, 97, 58, 98, 47, 120, 47, 121]

/-- "did:a:b/x" -/
def strEscX1 : GoStr := [100, 105, 100, 58, 97, 58, 98, 47, 120]

/-- "did:a:b/%78" -/
def strEscX2 : GoStr := [100, 105, 100, 58, 97, 58, 98, 47, 37, 55, 56]

/-- "did:a:b/x%2Fy" -/
def strEscSlash : GoStr := [100, 105, 100, 58, 97, 58, 98, 47, 120, 37, 50, 70, 121]

/-- "did:a:b" -/
def strDidAB : GoStr := [100, 105, 100, 58, 97, 58, 98]

/-- "/did:a" -/
def strSlashDidA : GoStr := [47, 100, 105, 100, 58, 97]

/-- "did:a:B" -/
def strDidAUpperB : GoStr := [100, 105, 100, 58, 97, 58, 66]

/-- "did:foo" -/
def strDidFoo : GoStr := [100, 105, 100, 58, 102, 111, 111]

/-- "urn:issn:0-670-85668-1" -/
def strUrn : GoStr :=
  [117, 114, 110, 58, 105, 115, 115, 110, 58, 48, 45, 54, 55, 48, 45, 56,
   53, 54, 54, 56, 45, 49]

/-- A URL value whose raw query `"?%zz"` holds an invalid percent escape. -/
def urlBadQuery : URL := ⟨⟨[97], [98]⟩, [], [63, 37, 122, 122], []⟩

/-!  ## Theorems -/

/-- C5: URL path equality removes dot segments, decodes percent escapes
case-insensitively, and keeps an escaped slash distinct from a literal slash:
`URLEqual("did:a:b/x/./y", "did:a:b/x/y")` is true,
`URLEqual("did:a:b/x", "did:a:b/%78")` is true, and
`URLEqual("did:a:b/x/y", "did:a:b/x%2Fy")` is false. -/
theorem c5_path_equality_examples :
    URLEqual strDotSeg1 strDotSeg2 = true ∧
    URLEqual strEscX1 strEscX2 = true ∧
    URLEqual strDotSeg2 strEscSlash = false := by decide

/-- C6 counterexample: `ParseURL("/did:a")` is not rejected with a syntax
error at byte index 4 — it succeeds (the leading slash ends the relative
first-segment colon scan immediately, so the colon is never examined). -/
theorem c6_counterexample :
    ParseURL strSlashDidA = .ok ⟨⟨[], []⟩, strSlashDidA, [], []⟩ := by decide

/-- C6 (amended): `URLEqual("did:a:b", "/did:a")` is false, and the
reference `"/did:a"` is accepted by `ParseURL` as a relative reference with
raw path `"/did:a"` (its first path segment is empty because the path is
rooted); the inequality holds because `Equal` rejects relative operands. -/
theorem c6_amended_relative_unequal :
    URLEqual strDidAB strSlashDidA = false ∧
    ParseURL strSlashDidA = .ok ⟨⟨[], []⟩, strSlashDidA, [], []⟩ ∧
    URL.IsRelative ⟨⟨[], []⟩, strSlashDidA, [], []⟩ = true := by decide

/-- C3 (code bug): `Parse("did:a:B")` succeeds with `DID{a, B}`, which is
`DID.Equal` to itself, yet `DID.EqualString` rejects the very same string:
the spec-ID switch of the source omits the uppercase letters. -/
theorem c3_equalstring_uppercase_bug :
    Parse strDidAUpperB = .ok ⟨[97], [66]⟩ ∧
    DID.Equal ⟨[97], [66]⟩ ⟨[97], [66]⟩ = true ∧
    DID.EqualString ⟨[97], [66]⟩ strDidAUpperB = false := by decide

/-- C4 (code bug): an error with index at the input length takes the
end-of-input branch, whose literal description bytes are `"end imcompltet"`,
not the claimed (and test-expected) `"end incomplete"`; and the wrong-scheme
input `"urn:issn:0-670-85668-1"` errors at byte 3 into the special colon
branch, whose description is left empty — the message never contains
`no "did:" scheme`. -/
theorem c4_error_text_bug :
    Parse strDidFoo = .error ⟨strDidFoo, 7⟩ ∧
    SynErr.descCase ⟨strDidFoo, 7⟩ = .endIncomplete ∧
    ErrDesc.text .endIncomplete =
      some [101, 110, 100, 32, 105, 109, 99, 111, 109, 112, 108, 116, 101, 116] ∧
    ErrDesc.text .endIncomplete ≠ some endIncompleteClaimed ∧
    Parse strUrn = .error ⟨strUrn, 3⟩ ∧
    SynErr.descCase ⟨strUrn, 3⟩ = .colonFirstSpecial ∧
    ErrDesc.text .colonFirstSpecial = some [] := by decide

/-- C7 counterexample: a URL whose raw query `"?%zz"` holds an invalid
percent escape still compares equal to itself — `escapedWithLeadEqual`'s
`a == b` fast path precedes all validation — so an invalid escape does not
force `Equal` to return false. -/
theorem c7_counterexample :
    URL.Equal urlBadQuery urlBadQuery = true ∧
    qfDecode [37, 122, 122] = none := by decide

/-- C8 counterexample: `"A"` does not hold two hex digits at positions 0 and
1, but `parseHex("A", 0)` reports index 1 (the second digit's position), not
the claimed index 0. -/
theorem c8_counterexample :
    parseHex [65] 0 = .error ⟨[65], 1⟩ ∧
    parseHex [65] 0 ≠ .error ⟨[65], 0⟩ := by decide

/-- A byte is a hex digit in `hexNibble`'s sense exactly when it lies in the
three ASCII ranges, and its value is then `hexVal`. -/
theorem hexNibble_ranges (c : Nat) :
    (¬((48 ≤ c ∧ c ≤ 57) ∨ (65 ≤ c ∧ c ≤ 70) ∨ (97 ≤ c ∧ c ≤ 102)) →
      hexNibble c = none) ∧
    (((48 ≤ c ∧ c ≤ 57) ∨ (65 ≤ c ∧ c ≤ 70) ∨ (97 ≤ c ∧ c ≤ 102)) →
      hexNibble c = some (hexVal c)) := by
  constructor
  · intro h
    unfold hexNibble
    rw [if_neg (by tauto), if_neg (by tauto), if_neg (by tauto)]
  · intro h
    unfold hexNibble
    by_cases h1 : 48 ≤ c ∧ c ≤ 57
    · rw [if_pos h1]
      have hv : hexVal c = c - 48 := by unfold hexVal; rw [if_pos (by omega)]
      rw [hv]
    · by_cases h2 : 65 ≤ c ∧ c ≤ 70
      · rw [if_neg h1, if_pos h2]
        have hv : hexVal c = c - 65 + 10 := by
          unfold hexVal; rw [if_neg (by omega), if_pos (by omega)]
        rw [hv]
      · have h3 : 97 ≤ c ∧ c ≤ 102 := by tauto
        rw [if_neg h1, if_neg h2, if_pos h3]
        have hv : hexVal c = c - 97 + 10 := by
          unfold hexVal; rw [if_neg (by omega), if_neg (by omega)]
        rw [hv]

/-- C8 (amended): `parseHex(s, i)` fails with `SyntaxError{input=s, index=i}`
when position `i` is out of bounds or not a hex digit; it fails with index
`i+1` when position `i` holds a hex digit but position `i+1` is out of bounds
or not a hex digit; otherwise it returns the combined octet. -/
theorem c8_amended_parsehex (s : GoStr) (i : Nat) :
    (¬ hexDigitAt s i → parseHex s i = .error ⟨s, i⟩) ∧
    (hexDigitAt s i → ¬ hexDigitAt s (i + 1) →
      parseHex s i = .error ⟨s, i + 1⟩) ∧
    (hexDigitAt s i → hexDigitAt s (i + 1) →
      parseHex s i =
        .ok (hexVal (s.getD i 0) * 16 + hexVal (s.getD (i + 1) 0))) := by
  refine ⟨?_, ?_, ?_⟩
  · intro h
    unfold parseHex
    rcases Nat.lt_or_ge i s.length with hlen | hlen
    · have hnone : hexNibble (s.getD i 0) = none := by
        refine (hexNibble_ranges _).1 ?_
        intro hr
        exact h ⟨hlen, hr⟩
      rw [if_neg (by omega), hnone]
    · rw [if_pos hlen]
  · rintro ⟨hlen, hr⟩ h2
    unfold parseHex
    have hsome := (hexNibble_ranges (s.getD i 0)).2 hr
    rw [if_neg (by omega)]
    simp only [hsome]
    rcases Nat.lt_or_ge (i + 1) s.length with hlen2 | hlen2
    · have hnone2 : hexNibble (s.getD (i + 1) 0) = none := by
        refine (hexNibble_ranges _).1 ?_
        intro hr2
        exact h2 ⟨hlen2, hr2⟩
      rw [if_neg (by omega)]
      simp only [hnone2]
    · rw [if_pos hlen2]
  · rintro ⟨hlen, hr⟩ ⟨hlen2, hr2⟩
    unfold parseHex
    have hsome := (hexNibble_ranges (s.getD i 0)).2 hr
    have hsome2 := (hexNibble_ranges (s.getD (i + 1) 0)).2 hr2
    rw [if_neg (by omega)]
    simp only [hsome]
    rw [if_neg (by omega)]
    simp only [hsome2]

/-- C8 witness: the amended statement applied at the concrete input
`("A", 0)`. -/
theorem c8_amended_witness : parseHex [65] 0 = .error ⟨[65], 1⟩ :=
  (c8_amended_parsehex [65] 0).2.1 (by decide) (by decide)

/-- Facts recovered from a suffix decomposition `s.drop i = c :: rest`. -/
theorem drop_cons_facts {s : GoStr} {i : Nat} {c : Nat} {rest : GoStr}
    (h : s.drop i = c :: rest) :
    s.drop (i + 1) = rest ∧ i < s.length := by
  constructor
  · have ht : (s.drop i).tail = s.drop (i + 1) := List.tail_drop s i
    rw [h] at ht
    exact ht.symm
  · by_contra hlen
    rw [List.drop_eq_nil_of_le (by omega)] at h
    exact List.noConfusion h

/-- Extending a consumed slice by the byte at its end. -/
theorem take_succ_of_drop {L : GoStr} {k : Nat} {c : Nat} {rest : GoStr}
    (h : L.drop k = c :: rest) :
    L.take (k + 1) = L.take k ++ [c] := by
  have hget : L[k]? = some c := by
    have := List.getElem?_drop L k 0
    rw [h] at this
    simpa using this.symm
  rw [List.take_succ, hget]
  rfl

/-- A method byte is a digit or a lowercase letter. -/
theorem methodChar_iff (c : Nat) :
    isMethodChar c = true ↔ ((48 ≤ c ∧ c ≤ 57) ∨ (97 ≤ c ∧ c ≤ 122)) := by
  simp [isMethodChar, isDigitB, isLowerB]

/-- An `idchar` byte is below 256 (and not a colon). -/
theorem idChar_facts {c : Nat} (h : isIdChar c = true) : c < 256 ∧ c ≠ 58 := by
  simp only [isIdChar, isDigitB, isLowerB, isUpperB, Bool.or_eq_true,
    decide_eq_true_eq] at h
  omega

/-- Hex nibbles are at most 15. -/
theorem hexNibble_le {c v : Nat} (h : hexNibble c = some v) : v ≤ 15 := by
  unfold hexNibble at h
  split_ifs at h with h1 h2 h3 <;> cases h <;> omega

/-- Soundness of the method-name loop: a successful scan yields a non-empty
all-method-char name (under the invariant that the consumed slice of `s` is
all method chars). -/
theorem rmn_sound (s : GoStr) (rest : GoStr) :
    ∀ i M, s.drop i = rest → 4 ≤ i →
      ((s.drop 4).take (i - 4)).all isMethodChar = true →
      readMethodNameAux s i rest = .ok M →
      M.all isMethodChar = true ∧ M ≠ [] := by
  induction rest with
  | nil =>
    intro i M hdrop hge hinv hok
    simp [readMethodNameAux] at hok
  | cons c rest ih =>
    intro i M hdrop hge hinv hok
    obtain ⟨hdrop1, hlen⟩ := drop_cons_facts hdrop
    simp only [readMethodNameAux] at hok
    by_cases hmc : isMethodChar c = true
    · rw [if_pos hmc] at hok
      refine ih (i + 1) M hdrop1 (by omega) ?_ hok
      have hdd : (s.drop 4).drop (i - 4) = c :: rest := by
        rw [List.drop_drop]
        rw [show 4 + (i - 4) = i by omega]
        exact hdrop
      have hext := take_succ_of_drop hdd
      rw [show i + 1 - 4 = (i - 4) + 1 by omega, hext, List.all_append]
      simp [hinv, hmc]
    · rw [if_neg hmc] at hok
      by_cases hcolon : c = 58
      · rw [if_pos (by simp [hcolon])] at hok
        by_cases hi4 : i = 4
        · rw [if_pos hi4] at hok
          exact absurd hok (by simp)
        · rw [if_neg hi4] at hok
          rw [Except.ok.injEq] at hok
          subst hok
          refine ⟨hinv, ?_⟩
          have hlen4 : ((s.drop 4).take (i - 4)).length = i - 4 := by
            rw [List.length_take, List.length_drop]
            omega
          intro hnil
          rw [hnil] at hlen4
          simp at hlen4
          omega
      · rw [if_neg (by simp [hcolon])] at hok
        exact absurd hok (by simp)

/-- Soundness of the escape-decoding loop: on success the output extends the
builder with bytes below 256, and is non-empty whenever the builder or the
remaining input is. -/
theorem escapeScan_sound (s : GoStr) (i0 : Nat) (b0 rest0 : GoStr) :
    ∀ out, b0.all (fun c => decide (c < 256)) = true →
      escapeScan s i0 b0 rest0 = .ok out →
      out.all (fun c => decide (c < 256)) = true ∧
        (b0 ≠ [] ∨ rest0 ≠ [] → out ≠ []) := by
  induction i0, b0, rest0 using escapeScan.induct s with
  | case1 i b =>
    intro out hb hok
    simp only [escapeScan] at hok
    cases hok
    exact ⟨hb, fun h => by tauto⟩
  | case2 i b c rest h58 hnil =>
    intro out hb hok
    rw [escapeScan.eq_def] at hok
    simp only [h58, hnil] at hok
    simp at hok
  | case3 i b c rest h58 hnil ih =>
    intro out hb hok
    rw [escapeScan.eq_def] at hok
    simp only [h58, hnil] at hok
    simp only [if_true, Bool.false_eq_true, if_false] at hok
    have h58e : c = 58 := by simpa using h58
    have := ih out (by rw [List.all_append]; simp [hb, h58e]) hok
    exact ⟨this.1, fun _ => this.2 (by simp)⟩
  | case4 i b c rest h58 hid ih =>
    intro out hb hok
    rw [escapeScan.eq_def] at hok
    simp only [h58, hid] at hok
    simp only [Bool.false_eq_true, if_false, if_true] at hok
    have hc := (idChar_facts hid).1
    have := ih out (by rw [List.all_append]; simp [hb]; omega) hok
    exact ⟨this.1, fun _ => this.2 (by simp)⟩
  | case5 i b c h58 hid h37 =>
    intro out hb hok
    rw [escapeScan.eq_def] at hok
    simp only [h58, hid, h37] at hok
    simp at hok
  | case6 i b c h58 hid h37 h1 hh1 =>
    intro out hb hok
    rw [escapeScan.eq_def] at hok
    simp only [h58, hid, h37, hh1] at hok
    simp at hok
  | case7 i b c h58 hid h37 h1 lo hh1 =>
    intro out hb hok
    rw [escapeScan.eq_def] at hok
    simp only [h58, hid, h37, hh1] at hok
    simp at hok
  | case8 i b c h58 hid h37 h1 h2 rest2 hh1 =>
    intro out hb hok
    rw [escapeScan.eq_def] at hok
    simp only [h58, hid, h37, hh1] at hok
    simp at hok
  | case9 i b c h58 hid h37 h1 h2 rest2 lo hh1 hh2 =>
    intro out hb hok
    rw [escapeScan.eq_def] at hok
    simp only [h58, hid, h37, hh1, hh2] at hok
    simp at hok
  | case10 i b c h58 hid h37 h1 h2 rest2 lo hh1 lo2 hh2 ih =>
    intro out hb hok
    rw [escapeScan.eq_def] at hok
    simp only [h58, hid, h37, hh1, hh2] at hok
    simp only [Bool.false_eq_true, if_false, if_true] at hok
    have hv1 := hexNibble_le hh1
    have hv2 := hexNibble_le hh2
    have := ih out (by rw [List.all_append]; simp [hb]; omega) hok
    exact ⟨this.1, fun _ => this.2 (by simp)⟩
  | case11 i b c rest h58 hid h37 =>
    intro out hb hok
    rw [escapeScan.eq_def] at hok
    simp only [h58, hid, h37] at hok
    simp at hok

/-- Consuming one byte extends the consumed slice by that byte. -/
theorem consume_inv {s : GoStr} {start i c : Nat} {rest : GoStr}
    (hdrop : s.drop i = c :: rest) (hle : start ≤ i) :
    (s.drop start).take (i + 1 - start) = (s.drop start).take (i - start) ++ [c] := by
  have hdd : (s.drop start).drop (i - start) = c :: rest := by
    rw [List.drop_drop, show start + (i - start) = i by omega]
    exact hdrop
  have := take_succ_of_drop hdd
  rw [show i + 1 - start = (i - start) + 1 by omega]
  exact this

/-- Soundness of the no-escape phase: a successful parse of the
method-specific identifier yields the given method name and a non-empty
identifier of bytes below 256. -/
theorem noEscapes_sound (s M : GoStr) (start : Nat) (i0 : Nat) (rest0 : GoStr) :
    ∀ d, s.drop i0 = rest0 → start ≤ i0 → start < s.length →
      ((s.drop start).take (i0 - start)).all (fun c => decide (c < 256)) = true →
      noEscapes s M start i0 rest0 = .ok d →
      d.Method = M ∧ d.SpecID ≠ [] ∧
        d.SpecID.all (fun c => decide (c < 256)) = true := by
  induction i0, rest0 using noEscapes.induct s M start with
  | case1 i =>
    intro d hdrop hle hlt hinv hok
    simp only [noEscapes] at hok
    cases hok
    refine ⟨rfl, ?_, ?_⟩
    · intro hnil
      have hnil2 : s.drop start = [] := hnil
      have hlen : (s.drop start).length = s.length - start := List.length_drop _ _
      rw [hnil2] at hlen
      simp at hlen
      omega
    · have hge : s.length ≤ i := by
        by_contra hlt2
        have : (s.drop i).length = s.length - i := List.length_drop _ _
        rw [hdrop] at this
        simp at this
        omega
      have heq : (s.drop start).take (i - start) = s.drop start :=
        List.take_of_length_le (by rw [List.length_drop]; omega)
      rw [heq] at hinv
      exact hinv
  | case2 i c rest h58 hnil =>
    intro d hdrop hle hlt hinv hok
    rw [noEscapes.eq_def] at hok
    simp only [h58, hnil] at hok
    simp at hok
  | case3 i c rest h58 hnil ih =>
    intro d hdrop hle hlt hinv hok
    rw [noEscapes.eq_def] at hok
    simp only [h58, hnil] at hok
    simp only [if_true, Bool.false_eq_true, if_false] at hok
    have h58e : c = 58 := by simpa using h58
    obtain ⟨hdrop1, hilen⟩ := drop_cons_facts hdrop
    refine ih d hdrop1 (by omega) hlt ?_ hok
    rw [consume_inv hdrop hle, List.all_append]
    simp [hinv, h58e]
  | case4 i c rest h58 hid ih =>
    intro d hdrop hle hlt hinv hok
    rw [noEscapes.eq_def] at hok
    simp only [h58, hid] at hok
    simp only [Bool.false_eq_true, if_false, if_true] at hok
    have hc := (idChar_facts hid).1
    obtain ⟨hdrop1, hilen⟩ := drop_cons_facts hdrop
    refine ih d hdrop1 (by omega) hlt ?_ hok
    rw [consume_inv hdrop hle, List.all_append]
    simp [hinv]
    omega
  | case5 i c rest h58 hid h37 e hesc =>
    intro d hdrop hle hlt hinv hok
    rw [noEscapes.eq_def] at hok
    simp only [h58, hid, h37, hesc] at hok
    simp at hok
  | case6 i c rest h58 hid h37 spec hesc =>
    intro d hdrop hle hlt hinv hok
    rw [noEscapes.eq_def] at hok
    simp only [h58, hid, h37, hesc] at hok
    simp only [Bool.false_eq_true, if_false, if_true] at hok
    cases hok
    have := escapeScan_sound s i ((s.drop start).take (i - start)) (c :: rest)
      spec hinv hesc
    exact ⟨rfl, this.2 (by simp), this.1⟩
  | case7 i c rest h58 hid h37 =>
    intro d hdrop hle hlt hinv hok
    rw [noEscapes.eq_def] at hok
    simp only [h58, hid, h37] at hok
    simp at hok

/-- Every scheme-check error carries the original input. -/
theorem schemeCheck_err {s : GoStr} {e : SynErr}
    (h : schemeCheck s = some e) : e.S = s := by
  unfold schemeCheck at h
  by_cases hs : hasScheme s = true
  · rw [if_pos hs] at h
    cases h
  · rw [if_neg hs] at h
    rcases hidx : indexAny s [58, 47, 63, 35] with _ | i <;>
      simp only [hidx] at h
    · rcases hdiv : prefixDiverge s with _ | j <;> simp only [hdiv] at h
      · cases h
      · cases h; rfl
    · by_cases hc : (s.getD i 0 == 58) = true
      · rw [if_pos hc] at h
        cases h; rfl
      · rw [if_neg hc] at h
        rcases hdiv : prefixDiverge s with _ | j <;> simp only [hdiv] at h
        · cases h
        · cases h; rfl

/-- Every method-name error carries the original input. -/
theorem rmn_err (s : GoStr) (rest : GoStr) :
    ∀ i e, readMethodNameAux s i rest = .error e → e.S = s := by
  induction rest with
  | nil =>
    intro i e h
    simp only [readMethodNameAux] at h
    cases h; rfl
  | cons c rest ih =>
    intro i e h
    simp only [readMethodNameAux] at h
    by_cases hmc : isMethodChar c = true
    · rw [if_pos hmc] at h
      exact ih _ _ h
    · rw [if_neg hmc] at h
      by_cases hcolon : (c == 58) = true
      · rw [if_pos hcolon] at h
        by_cases hi4 : i = 4
        · rw [if_pos hi4] at h
          cases h; rfl
        · rw [if_neg hi4] at h
          cases h
      · rw [if_neg hcolon] at h
        cases h; rfl

/-- Every escape-phase error carries the original input. -/
theorem escapeScan_err (s : GoStr) (i0 : Nat) (b0 rest0 : GoStr) :
    ∀ e, escapeScan s i0 b0 rest0 = .error e → e.S = s := by
  induction i0, b0, rest0 using escapeScan.induct s with
  | case1 i b =>
    intro e h
    simp only [escapeScan] at h
    cases h
  | case2 i b c rest h58 hnil =>
    intro e h
    rw [escapeScan.eq_def] at h
    simp only [h58, hnil] at h
    simp only [if_true] at h
    cases h; rfl
  | case3 i b c rest h58 hnil ih =>
    intro e h
    rw [escapeScan.eq_def] at h
    simp only [h58, hnil] at h
    simp only [if_true, Bool.false_eq_true, if_false] at h
    exact ih _ h
  | case4 i b c rest h58 hid ih =>
    intro e h
    rw [escapeScan.eq_def] at h
    simp only [h58, hid] at h
    simp only [Bool.false_eq_true, if_false, if_true] at h
    exact ih _ h
  | case5 i b c h58 hid h37 =>
    intro e h
    rw [escapeScan.eq_def] at h
    simp only [h58, hid, h37] at h
    simp only [Bool.false_eq_true, if_false, if_true] at h
    cases h; rfl
  | case6 i b c h58 hid h37 h1 hh1 =>
    intro e h
    rw [escapeScan.eq_def] at h
    simp only [h58, hid, h37, hh1] at h
    simp only [Bool.false_eq_true, if_false, if_true] at h
    cases h; rfl
  | case7 i b c h58 hid h37 h1 lo hh1 =>
    intro e h
    rw [escapeScan.eq_def] at h
    simp only [h58, hid, h37, hh1] at h
    simp only [Bool.false_eq_true, if_false, if_true] at h
    cases h; rfl
  | case8 i b c h58 hid h37 h1 h2 rest2 hh1 =>
    intro e h
    rw [escapeScan.eq_def] at h
    simp only [h58, hid, h37, hh1] at h
    simp only [Bool.false_eq_true, if_false, if_true] at h
    cases h; rfl
  | case9 i b c h58 hid h37 h1 h2 rest2 lo hh1 hh2 =>
    intro e h
    rw [escapeScan.eq_def] at h
    simp only [h58, hid, h37, hh1, hh2] at h
    simp only [Bool.false_eq_true, if_false, if_true] at h
    cases h; rfl
  | case10 i b c h58 hid h37 h1 h2 rest2 lo hh1 lo2 hh2 ih =>
    intro e h
    rw [escapeScan.eq_def] at h
    simp only [h58, hid, h37, hh1, hh2] at h
    simp only [Bool.false_eq_true, if_false, if_true] at h
    exact ih _ h
  | case11 i b c rest h58 hid h37 =>
    intro e h
    rw [escapeScan.eq_def] at h
    simp only [h58, hid, h37] at h
    simp only [Bool.false_eq_true, if_false] at h
    cases h; rfl

/-- Every no-escape-phase error carries the original input. -/
theorem noEscapes_err (s M : GoStr) (start : Nat) (i0 : Nat) (rest0 : GoStr) :
    ∀ e, noEscapes s M start i0 rest0 = .error e → e.S = s := by
  induction i0, rest0 using noEscapes.induct s M start with
  | case1 i =>
    intro e h
    simp only [noEscapes] at h
    cases h
  | case2 i c rest h58 hnil =>
    intro e h
    rw [noEscapes.eq_def] at h
    simp only [h58, hnil] at h
    simp only [if_true] at h
    cases h; rfl
  | case3 i c rest h58 hnil ih =>
    intro e h
    rw [noEscapes.eq_def] at h
    simp only [h58, hnil] at h
    simp only [if_true, Bool.false_eq_true, if_false] at h
    exact ih _ h
  | case4 i c rest h58 hid ih =>
    intro e h
    rw [noEscapes.eq_def] at h
    simp only [h58, hid] at h
    simp only [Bool.false_eq_true, if_false, if_true] at h
    exact ih _ h
  | case5 i c rest h58 hid h37 e2 hesc =>
    intro e h
    rw [noEscapes.eq_def] at h
    simp only [h58, hid, h37, hesc] at h
    simp only [Bool.false_eq_true, if_false, if_true] at h
    cases h
    exact escapeScan_err s i _ (c :: rest) _ hesc
  | case6 i c rest h58 hid h37 spec hesc =>
    intro e h
    rw [noEscapes.eq_def] at h
    simp only [h58, hid, h37, hesc] at h
    simp only [Bool.false_eq_true, if_false, if_true] at h
    cases h
  | case7 i c rest h58 hid h37 =>
    intro e h
    rw [noEscapes.eq_def] at h
    simp only [h58, hid, h37] at h
    simp only [Bool.false_eq_true, if_false] at h
    cases h; rfl

/-- A successful `Parse` yields a valid DID: non-empty all-method-char
method, non-empty spec-ID of bytes below 256. -/
theorem Parse_ok_valid {s : GoStr} {d : DID} (h : Parse s = .ok d) :
    d.Method ≠ [] ∧ d.Method.all isMethodChar = true ∧ d.SpecID ≠ [] ∧
      d.SpecID.all (fun c => decide (c < 256)) = true := by
  simp only [Parse] at h
  rcases hsch : schemeCheck s with _ | e <;> simp only [hsch] at h
  · rcases hrmn : readMethodName s with e | M <;> simp only [hrmn] at h
    · cases h
    · by_cases hlen : 4 + M.length + 1 ≥ s.length
      · rw [if_pos hlen] at h
        cases h
      · rw [if_neg hlen] at h
        have hM := rmn_sound s (s.drop 4) 4 M rfl (by omega) (by simp) hrmn
        have hd := noEscapes_sound s M (4 + M.length + 1) (4 + M.length + 1)
          (s.drop (4 + M.length + 1)) d rfl (by omega) (by omega) (by simp) h
        rw [hd.1]
        exact ⟨hM.2, hM.1, hd.2.1, hd.2.2⟩
  · cases h

/-- Every `Parse` error carries the original input. -/
theorem Parse_err_S {s : GoStr} {e : SynErr} (h : Parse s = .error e) :
    e.S = s := by
  simp only [Parse] at h
  rcases hsch : schemeCheck s with _ | e2 <;> simp only [hsch] at h
  · rcases hrmn : readMethodName s with e2 | M <;> simp only [hrmn] at h
    · cases h
      exact rmn_err s (s.drop 4) 4 _ hrmn
    · by_cases hlen : 4 + M.length + 1 ≥ s.length
      · rw [if_pos hlen] at h
        cases h; rfl
      · rw [if_neg hlen] at h
        exact noEscapes_err s M _ _ _ _ h
  · cases h
    exact schemeCheck_err hsch

/-- C1: `Parse` is total with a validity postcondition: every input either
yields a DID whose method is non-empty and all lowercase letters or digits
and whose spec-ID is non-empty, or a syntax error whose input field is the
original string. -/
theorem c1_parse_totality (s : GoStr) :
    match Parse s with
    | .ok d => d.Method ≠ [] ∧
        (∀ c ∈ d.Method, (48 ≤ c ∧ c ≤ 57) ∨ (97 ≤ c ∧ c ≤ 122)) ∧
        d.SpecID ≠ []
    | .error e => e.S = s := by
  rcases hp : Parse s with e | d <;> simp only [hp]
  · exact Parse_err_S hp
  · have hv := Parse_ok_valid hp
    refine ⟨hv.1, ?_, hv.2.2.1⟩
    intro c hc
    exact (methodChar_iff c).mp (List.all_eq_true.mp hv.2.1 c hc)

/-- The uppercase hex table inverts through `hexNibble`. -/
theorem hexNibble_hexTableF : ∀ n, n < 16 → hexNibble (hexTableF n) = some n := by
  decide

/-- Unfolding one element of the spec-ID encoder. -/
theorem specEncode_cons (c : Nat) (l : GoStr) :
    specEncode (c :: l) = escapeSpecChar c ++ specEncode l := rfl

/-- The encoder never emits an empty chunk. -/
theorem escapeSpecChar_ne_nil (c : Nat) : escapeSpecChar c ≠ [] := by
  unfold escapeSpecChar
  split_ifs <;> simp

/-- The escape-decoding loop inverts the spec-ID encoder: fed the encoded
tail, it appends the decoded bytes to the builder and succeeds. -/
theorem escapeScan_encode (s : GoStr) (spec : GoStr) :
    ∀ i b, spec.all (fun c => decide (c < 256)) = true →
      escapeScan s i b (specEncode spec) = .ok (b ++ spec) := by
  induction spec with
  | nil =>
    intro i b hall
    simp [specEncode, escapeScan]
  | cons c spec ih =>
    intro i b hall
    simp only [List.all_cons, Bool.and_eq_true, decide_eq_true_eq] at hall
    rw [specEncode_cons]
    by_cases hid : isIdChar c = true
    · have hc58 : ¬(c == 58) = true := by
        simp [(idChar_facts hid).2]
      unfold escapeSpecChar
      rw [if_pos hid]
      show escapeScan s i b (c :: specEncode spec) = _
      rw [escapeScan.eq_def]
      simp only [hc58, hid]
      simp only [Bool.false_eq_true, if_false, if_true]
      rw [ih (i + 1) (b ++ [c]) hall.2]
      simp
    · unfold escapeSpecChar
      rw [if_neg hid]
      show escapeScan s i b
          (37 :: hexTableF (c / 16) :: hexTableF (c % 16) :: specEncode spec) = _
      rw [escapeScan.eq_def]
      have hh1 : hexNibble (hexTableF (c / 16)) = some (c / 16) :=
        hexNibble_hexTableF _ (by omega)
      have hh2 : hexNibble (hexTableF (c % 16)) = some (c % 16) :=
        hexNibble_hexTableF _ (by omega)
      simp only [show ((37 : Nat) == 58) = false from by decide,
        show isIdChar 37 = false from by decide,
        show ((37 : Nat) == 37) = true from by decide,
        Bool.false_eq_true, if_false, if_true, hh1, hh2]
      rw [show c / 16 * 16 + c % 16 = c from by omega]
      rw [ih (i + 3) (b ++ [c]) hall.2]
      simp

/-- The no-escape phase inverts the spec-ID encoder (with `spec1` the
already-scanned plain-idchar prefix of the identifier). -/
theorem noEscapes_encode (s M : GoStr) (start : Nat) (spec2 : GoStr) :
    ∀ spec1, spec1.all isIdChar = true →
      spec2.all (fun c => decide (c < 256)) = true →
      s.drop start = spec1 ++ specEncode spec2 →
      noEscapes s M start (start + spec1.length) (specEncode spec2) =
        .ok ⟨M, spec1 ++ spec2⟩ := by
  induction spec2 with
  | nil =>
    intro spec1 h1 h2 hdrop
    show noEscapes s M start (start + spec1.length) [] = _
    simp only [noEscapes]
    rw [hdrop]
    simp [specEncode]
  | cons c spec2 ih =>
    intro spec1 h1 h2 hdrop
    simp only [List.all_cons, Bool.and_eq_true, decide_eq_true_eq] at h2
    rw [specEncode_cons] at hdrop ⊢
    by_cases hid : isIdChar c = true
    · have hc58 : ¬(c == 58) = true := by
        simp [(idChar_facts hid).2]
      unfold escapeSpecChar at hdrop ⊢
      rw [if_pos hid] at hdrop ⊢
      show noEscapes s M start (start + spec1.length)
          (c :: specEncode spec2) = _
      rw [noEscapes.eq_def]
      simp only [hc58, hid]
      simp only [Bool.false_eq_true, if_false, if_true]
      have := ih (spec1 ++ [c])
        (by rw [List.all_append]; simp [h1, hid])
        h2.2
        (by rw [hdrop]; simp)
      rw [show start + spec1.length + 1 = start + (spec1 ++ [c]).length from by
        simp only [List.length_append, List.length_cons, List.length_nil]
        omega]
      rw [this]
      simp
    · unfold escapeSpecChar at hdrop ⊢
      rw [if_neg hid] at hdrop ⊢
      show noEscapes s M start (start + spec1.length)
          (37 :: hexTableF (c / 16) :: hexTableF (c % 16) :: specEncode spec2) = _
      rw [noEscapes.eq_def]
      simp only [show ((37 : Nat) == 58) = false from by decide,
        show isIdChar 37 = false from by decide,
        show ((37 : Nat) == 37) = true from by decide,
        Bool.false_eq_true, if_false, if_true]
      have htake : (s.drop start).take (start + spec1.length - start) = spec1 := by
        rw [show start + spec1.length - start = spec1.length from by omega, hdrop]
        exact List.take_left _ _
      rw [htake]
      have hesc := escapeScan_encode s (c :: spec2) (start + spec1.length) spec1
        (by simp only [List.all_cons, Bool.and_eq_true, decide_eq_true_eq]
            exact ⟨h2.1, h2.2⟩)
      rw [specEncode_cons] at hesc
      unfold escapeSpecChar at hesc
      rw [if_neg hid] at hesc
      simp only [List.cons_append, List.nil_append] at hesc
      rw [hesc]

/-- Completeness of the method-name loop on a well-formed method followed by
a colon. -/
theorem rmn_complete (s : GoStr) (M : GoStr) (rest2 : GoStr) :
    ∀ i, M.all isMethodChar = true → 4 ≤ i → (M ≠ [] ∨ 4 < i) →
      readMethodNameAux s i (M ++ 58 :: rest2) =
        .ok ((s.drop 4).take (i + M.length - 4)) := by
  induction M with
  | nil =>
    intro i hall hge hne
    have hi4 : i ≠ 4 := by
      rcases hne with h | h
      · exact absurd rfl h
      · omega
    simp only [List.nil_append, readMethodNameAux]
    rw [if_neg (by simp [show isMethodChar 58 = false from by decide])]
    rw [if_pos (by decide)]
    rw [if_neg hi4]
    simp
  | cons m M ih =>
    intro i hall hge hne
    simp only [List.all_cons, Bool.and_eq_true] at hall
    simp only [List.cons_append, readMethodNameAux]
    rw [if_pos hall.1]
    simp only [List.append_eq]
    rw [ih (i + 1) hall.2 (by omega) (Or.inr (by omega))]
    congr 2
    simp only [List.length_cons]
    omega

/-- The encoder output is non-empty for non-empty input. -/
theorem specEncode_ne_nil {spec : GoStr} (h : spec ≠ []) :
    specEncode spec ≠ [] := by
  rcases spec with _ | ⟨c, rest⟩
  · exact absurd rfl h
  · rw [specEncode_cons]
    intro hcontra
    rcases List.append_eq_nil.mp hcontra with ⟨h1, _⟩
    exact escapeSpecChar_ne_nil c h1

/-- `Parse` inverts `DID.String` on every valid DID value. -/
theorem parse_string_of_valid (d : DID) (hM : d.Method ≠ [])
    (hMc : d.Method.all isMethodChar = true) (hS : d.SpecID ≠ [])
    (hSb : d.SpecID.all (fun c => decide (c < 256)) = true) :
    Parse (DID.String d) = .ok d := by
  obtain ⟨M, spec⟩ := d
  simp only [DID.Method] at hM hMc
  simp only [DID.SpecID] at hS hSb
  have hstr : DID.String ⟨M, spec⟩ =
      didScheme ++ (M ++ 58 :: specEncode spec) := by
    unfold DID.String
    rw [if_neg (by simp [hM])]
    simp
  rw [hstr]
  have hdrop4 : (didScheme ++ (M ++ 58 :: specEncode spec)).drop 4 =
      M ++ 58 :: specEncode spec := by
    rw [show (4 : Nat) = didScheme.length from rfl]
    exact List.drop_left _ _
  have hscheme : schemeCheck (didScheme ++ (M ++ 58 :: specEncode spec)) =
      none := by
    unfold schemeCheck
    rw [if_pos ?_]
    unfold hasScheme
    rw [show (4 : Nat) = didScheme.length from rfl, List.take_left]
    simp
  have hrmn : readMethodName (didScheme ++ (M ++ 58 :: specEncode spec)) =
      .ok M := by
    unfold readMethodName
    rw [hdrop4]
    rw [rmn_complete _ M (specEncode spec) 4 hMc (by omega) (Or.inl hM)]
    rw [hdrop4]
    rw [show 4 + M.length - 4 = M.length from by omega]
    rw [List.take_left]
  have hlenS : (didScheme ++ (M ++ 58 :: specEncode spec)).length =
      4 + M.length + 1 + (specEncode spec).length := by
    simp [didScheme]
    omega
  have hEnn : specEncode spec ≠ [] := specEncode_ne_nil hS
  simp only [Parse, hscheme, hrmn]
  rw [if_neg ?_]
  swap
  · rw [hlenS]
    have : (specEncode spec).length ≠ 0 := by
      intro h0
      exact hEnn (List.length_eq_zero.mp h0)
    omega
  have hdropq : (didScheme ++ (M ++ 58 :: specEncode spec)).drop
      (4 + M.length + 1) = specEncode spec := by
    have hassoc : didScheme ++ (M ++ 58 :: specEncode spec) =
        (didScheme ++ M ++ [58]) ++ specEncode spec := by
      simp
    rw [hassoc]
    rw [show 4 + M.length + 1 = (didScheme ++ M ++ [58]).length from by
      simp [didScheme]; omega]
    exact List.drop_left _ _
  rw [hdropq]
  have := noEscapes_encode (didScheme ++ (M ++ 58 :: specEncode spec)) M
    (4 + M.length + 1) spec [] (by simp) hSb
    (by rw [hdropq]; simp)
  simp only [List.length_nil, Nat.add_zero, List.nil_append] at this
  exact this

/-- C2: for every DID obtained from a successful `Parse`, parsing its
canonical serialization succeeds and returns the same DID (hence
`parse(toString(parse(s))) = parse(s)` and serialization is canonically
idempotent). -/
theorem c2_string_roundtrip (s : GoStr) (d : DID) (h : Parse s = .ok d) :
    Parse (DID.String d) = .ok d := by
  have hv := Parse_ok_valid h
  exact parse_string_of_valid d hv.1 hv.2.1 hv.2.2.1 hv.2.2.2

/-- C2 witness: the round trip applied to the concrete parse of
`"did:a:b%3Ac"` (spec-ID `"b:c"`), whose serialization is `"did:a:b%3Ac"`. -/
theorem c2_string_roundtrip_witness :
    Parse (DID.String ⟨[97], [98, 58, 99]⟩) = .ok ⟨[97], [98, 58, 99]⟩ :=
  c2_string_roundtrip [100, 105, 100, 58, 97, 58, 98, 37, 51, 65, 99]
    ⟨[97], [98, 58, 99]⟩ (by decide)

/-- Only the empty remainder decodes to the empty octet sequence. -/
theorem qfDecode_nil_iff (b : GoStr) : qfDecode b = some [] ↔ b = [] := by
  constructor
  · intro h
    rcases b with _ | ⟨c, rest⟩
    · rfl
    · exfalso
      rw [qfDecode.eq_def] at h
      simp only [] at h
      split_ifs at h with hq h37
      · rcases hd : qfDecode rest with _ | xs <;> simp [hd] at h
      · rcases rest with _ | ⟨h1, _ | ⟨h2, r2⟩⟩
        · simp at h
        · simp at h
        · rcases hn1 : hexNibble h1 with _ | hi
          · simp [hn1] at h
          · rcases hn2 : hexNibble h2 with _ | lo
            · simp [hn1, hn2] at h
            · rcases hd : qfDecode r2 with _ | xs <;>
                simp [hn1, hn2, hd] at h
  · rintro rfl
    rfl

/-- One right-hand step of the comparison loop agrees with the reference
decoder. -/
theorem escScanStep_decode (b : GoStr) (hb : b ≠ []) :
    (escScanStep b = none → qfDecode b = none) ∧
    (∀ bc b2, escScanStep b = some (bc, b2) →
      qfDecode b = (qfDecode b2).map fun xs => bc :: xs) := by
  rcases b with _ | ⟨c, rest⟩
  · exact absurd rfl hb
  by_cases hq : isQueryChar c = true
  · refine ⟨fun hh => ?_, fun bc b2 hh => ?_⟩
    · simp [escScanStep, hq] at hh
    · simp only [escScanStep, hq, if_true, Option.some.injEq,
        Prod.mk.injEq] at hh
      rw [qfDecode.eq_def]
      simp only [hq, if_true]
      rw [hh.1, hh.2]
  · by_cases h37 : (c == 37) = true
    · rcases rest with _ | ⟨h1, _ | ⟨h2, r2⟩⟩
      · exact ⟨fun _ => by simp [qfDecode, hq, h37],
          fun bc b2 hh => by simp [escScanStep, hq, h37] at hh⟩
      · exact ⟨fun _ => by simp [qfDecode, hq, h37],
          fun bc b2 hh => by simp [escScanStep, hq, h37] at hh⟩
      · rcases hn1 : hexNibble h1 with _ | hi
        · exact ⟨fun _ => by simp [qfDecode, hq, h37, hn1],
            fun bc b2 hh => by simp [escScanStep, hq, h37, hn1] at hh⟩
        · rcases hn2 : hexNibble h2 with _ | lo
          · exact ⟨fun _ => by simp [qfDecode, hq, h37, hn1, hn2],
              fun bc b2 hh => by
                simp [escScanStep, hq, h37, hn1, hn2] at hh⟩
          · refine ⟨fun hh => ?_, fun bc b2 hh => ?_⟩
            · simp [escScanStep, hq, h37, hn1, hn2] at hh
            · simp only [escScanStep, hq, Bool.false_eq_true, if_false,
                h37, if_true, hn1, hn2, Option.some.injEq,
                Prod.mk.injEq] at hh
              simp only [qfDecode, hq, Bool.false_eq_true, if_false, h37,
                if_true, hn1, hn2]
              rw [hh.1, hh.2]
    · exact ⟨fun _ => by rw [qfDecode.eq_def]; simp [hq, h37],
        fun bc b2 hh => by simp [escScanStep, hq, h37] at hh⟩

/-- The comparison loop of `escapedWithLeadEqual` only returns true when the
two remainders decode to the same octet sequence. -/
theorem escLoop_decodes (a0 b0 : GoStr) :
    escLoop a0 b0 = true →
      ∃ xs, qfDecode a0 = some xs ∧ qfDecode b0 = some xs := by
  induction a0, b0 using escLoop.induct with
  | case1 b =>
    intro hl
    rw [escLoop.eq_def] at hl
    have hbn : b = [] := by simpa using hl
    subst hbn
    exact ⟨[], rfl, rfl⟩
  | case2 c a b hb =>
    intro hl
    rw [escLoop.eq_def] at hl
    simp [hb] at hl
  | case3 c a b hb hq ih =>
    intro hl
    rw [escLoop.eq_def] at hl
    simp only [Bool.not_eq_true] at hb
    simp only [hb, Bool.false_eq_true, if_false, hq, if_true] at hl
    have hbne : b ≠ [] := by
      intro hn
      rw [hn] at hb
      simp at hb
    rcases hstep : escScanStep b with _ | ⟨bc, b2⟩ <;>
      simp only [hstep, escStepK] at hl
    · simp at hl
    · simp only [Bool.and_eq_true, beq_iff_eq] at hl
      obtain ⟨xs, ha, hb2⟩ := ih b2 hl.2
      refine ⟨c :: xs, ?_, ?_⟩
      · rw [qfDecode.eq_def]
        simp only [hq, if_true, ha]
        rfl
      · rw [(escScanStep_decode b hbne).2 bc b2 hstep, hb2, hl.1]
        rfl
  | case4 c b hb hq h37 =>
    intro hl
    rw [escLoop.eq_def] at hl
    simp only [Bool.not_eq_true] at hb
    simp [hb, hq, h37] at hl
  | case5 c b hb hq h37 h1 =>
    intro hl
    rw [escLoop.eq_def] at hl
    simp only [Bool.not_eq_true] at hb
    simp [hb, hq, h37] at hl
  | case6 c b hb hq h37 h1 h2 rest2 hn1 =>
    intro hl
    rw [escLoop.eq_def] at hl
    simp only [Bool.not_eq_true] at hb
    simp [hb, hq, h37, hn1] at hl
  | case7 c b hb hq h37 h1 h2 rest2 hi hn1 hn2 =>
    intro hl
    rw [escLoop.eq_def] at hl
    simp only [Bool.not_eq_true] at hb
    simp [hb, hq, h37, hn1, hn2] at hl
  | case8 c b hb hq h37 h1 h2 rest2 hi hn1 lo hn2 ih =>
    intro hl
    rw [escLoop.eq_def] at hl
    simp only [Bool.not_eq_true] at hb
    simp only [hb, Bool.false_eq_true, if_false, hq, h37, if_true, hn1,
      hn2] at hl
    have hbne : b ≠ [] := by
      intro hn
      rw [hn] at hb
      simp at hb
    rcases hstep : escScanStep b with _ | ⟨bc, b2⟩ <;>
      simp only [hstep, escStepK] at hl
    · simp at hl
    · simp only [Bool.and_eq_true, beq_iff_eq] at hl
      obtain ⟨xs, ha, hb2⟩ := ih b2 hl.2
      refine ⟨(hi * 16 + lo) :: xs, ?_, ?_⟩
      · simp only [qfDecode, hq, Bool.false_eq_true, if_false, h37,
          if_true, hn1, hn2, ha]
        rfl
      · rw [(escScanStep_decode b hbne).2 bc b2 hstep, hb2, hl.1]
        rfl
  | case9 c a b hb hq h37 =>
    intro hl
    rw [escLoop.eq_def] at hl
    simp only [Bool.not_eq_true] at hb
    simp [hb, hq, h37] at hl

/-- `escapedWithLeadEqual` on distinct raw components only returns true when
both start with the delimiter and their remainders decode identically. -/
theorem escapedWithLeadEqual_decodes {a b : GoStr} {lead : Nat}
    (h : escapedWithLeadEqual a b lead = true) (hne : a ≠ b) :
    ∃ ra rb xs, a = lead :: ra ∧ b = lead :: rb ∧
      qfDecode ra = some xs ∧ qfDecode rb = some xs := by
  unfold escapedWithLeadEqual at h
  rw [if_neg (by simp [hne])] at h
  split_ifs at h with h2 h3
  · simp only [Bool.or_eq_true, not_or] at h2 h3
    have ha : a ≠ [] := by
      intro hn
      exact absurd (by simp [hn]) h2.1
    have hbn : b ≠ [] := by
      intro hn
      exact absurd (by simp [hn]) h2.2
    rcases a with _ | ⟨a0, ra⟩
    · exact absurd rfl ha
    rcases b with _ | ⟨b0, rb⟩
    · exact absurd rfl hbn
    have ha0 : a0 = lead := by
      have h4 := h3.1
      simp only [List.tail_cons, List.headD_cons, bne_iff_ne, not_not] at h4
      exact h4
    have hb0 : b0 = lead := by
      have h4 := h3.2
      simp only [List.tail_cons, List.headD_cons, bne_iff_ne, not_not] at h4
      exact h4
    obtain ⟨xs, hra, hrb⟩ := escLoop_decodes ra rb (by simpa using h)
    exact ⟨ra, rb, xs, by rw [ha0], by rw [hb0], hra, hrb⟩

/-- C7 (amended): whenever the raw query (resp. fragment) components of two
URL values are not byte-identical, equality can only hold if both carry the
delimiter and their remainders percent-decode to the same octet sequence —
so an invalid escape in either remainder forces inequality, except through
the byte-identical fast path. -/
theorem c7_query_fragment_decoding (u o : URL) :
    (URL.Equal u o = true → o.RawQuery ≠ u.RawQuery →
      ∃ ra rb xs, o.RawQuery = 63 :: ra ∧ u.RawQuery = 63 :: rb ∧
        qfDecode ra = some xs ∧ qfDecode rb = some xs) ∧
    (URL.Equal u o = true → o.RawFragment ≠ u.RawFragment →
      ∃ ra rb xs, o.RawFragment = 35 :: ra ∧ u.RawFragment = 35 :: rb ∧
        qfDecode ra = some xs ∧ qfDecode rb = some xs) := by
  constructor
  · intro heq hne
    simp only [URL.Equal, Bool.and_eq_true] at heq
    exact escapedWithLeadEqual_decodes heq.1.2 hne
  · intro heq hne
    simp only [URL.Equal, Bool.and_eq_true] at heq
    exact escapedWithLeadEqual_decodes heq.1.1.2 hne

/-- C7 witness: the amended statement applied to `"?%61"` versus `"?a"` on
the DID `did:a:b`. -/
theorem c7_query_fragment_witness :
    ∃ ra rb xs, ([63, 37, 54, 49] : GoStr) = 63 :: ra ∧
      ([63, 97] : GoStr) = 63 :: rb ∧
      qfDecode ra = some xs ∧ qfDecode rb = some xs :=
  (c7_query_fragment_decoding ⟨⟨[97], [98]⟩, [], [63, 97], []⟩
    ⟨⟨[97], [98]⟩, [], [63, 37, 54, 49], []⟩).1 (by decide) (by decide)

/-- A byte that `PathEscape` leaves literal is neither `'%'` nor `'/'`. -/
theorem shouldEscapeSeg_false_ne {c : Nat} (h : shouldEscapeSeg c = false) :
    c ≠ 37 ∧ c ≠ 47 := by
  refine ⟨fun hc => ?_, fun hc => ?_⟩
  · subst hc; exact absurd h (by decide)
  · subst hc; exact absurd h (by decide)

/-- Hex-table output bytes are uppercase hex digits, never `'/'` or `'%'`. -/
theorem hexTableF_ne (n : Nat) : hexTableF n ≠ 47 ∧ hexTableF n ≠ 37 := by
  by_cases h : n < 16
  · interval_cases n <;> exact ⟨by decide, by decide⟩
  · unfold hexTableF
    rw [List.getD_eq_default]
    · exact ⟨by decide, by decide⟩
    · simp only [hexTableList, List.length]
      omega

/-- One step of `PathEscape`. -/
theorem pathEscape_cons (c : Nat) (s : GoStr) :
    pathEscape (c :: s) =
      (if shouldEscapeSeg c then [37, hexTableF (c / 16), hexTableF (c % 16)]
       else [c]) ++ pathEscape s := by
  simp [pathEscape]

/-- Escaped segments never contain a literal slash. -/
theorem pathEscape_no_slash (s : GoStr) : ∀ c ∈ pathEscape s, c ≠ 47 := by
  induction s with
  | nil => intro c hc; simp [pathEscape] at hc
  | cons a s ih =>
    intro c hc
    rw [pathEscape_cons] at hc
    rcases List.mem_append.1 hc with h | h
    · by_cases hesc : shouldEscapeSeg a = true
      · rw [if_pos hesc] at h
        simp only [List.mem_cons, List.not_mem_nil, or_false] at h
        rcases h with rfl | rfl | rfl
        · decide
        · exact (hexTableF_ne (a / 16)).1
        · exact (hexTableF_ne (a % 16)).1
      · rw [Bool.not_eq_true] at hesc
        rw [if_neg (by simp [hesc])] at h
        simp only [List.mem_cons, List.not_mem_nil, or_false] at h
        subst h
        exact (shouldEscapeSeg_false_ne hesc).2
    · exact ih c h

/-- Escaping a non-empty segment yields a non-empty string. -/
theorem pathEscape_ne_nil {s : GoStr} (h : s ≠ []) : pathEscape s ≠ [] := by
  rcases s with _ | ⟨c, s⟩
  · exact absurd rfl h
  rw [pathEscape_cons]
  by_cases hesc : shouldEscapeSeg c = true
  · rw [if_pos hesc]; simp
  · rw [if_neg hesc]; simp

/-- With enough fuel, `bestEffortDecode`'s loop inverts `PathEscape` on any
segment of genuine bytes. -/
theorem bestEffortDecodeF_pathEscape (s : GoStr) (hb : ∀ c ∈ s, c < 256) :
    ∀ fuel, (pathEscape s).length ≤ fuel →
      bestEffortDecodeF fuel (pathEscape s) = s := by
  induction s with
  | nil =>
    intro fuel hf
    cases fuel <;> rfl
  | cons c s ih =>
    intro fuel hf
    have hc : c < 256 := hb c (List.mem_cons_self c s)
    have hb2 : ∀ x ∈ s, x < 256 := fun x hx => hb x (List.mem_cons_of_mem c hx)
    rw [pathEscape_cons] at hf ⊢
    by_cases hesc : shouldEscapeSeg c = true
    · rw [if_pos hesc] at hf ⊢
      rcases fuel with _ | fuel
      · simp at hf
      · rw [List.cons_append, List.cons_append, List.cons_append,
          List.nil_append]
        rw [bestEffortDecodeF.eq_def]
        simp only [hexNibble_hexTableF (c / 16) (by omega),
          hexNibble_hexTableF (c % 16) (by omega)]
        have hcv : c / 16 * 16 + c % 16 = c := by omega
        rw [hcv, ih hb2 fuel (by simp at hf ⊢; omega)]
        simp
    · rw [Bool.not_eq_true] at hesc
      rw [if_neg (by simp [hesc])] at hf ⊢
      rcases fuel with _ | fuel
      · simp at hf
      · rw [List.cons_append, List.nil_append]
        rw [bestEffortDecodeF.eq_def]
        have hc37 : (c == 37) = false := by
          simp [(shouldEscapeSeg_false_ne hesc).1]
        simp only [hc37, Bool.false_eq_true, if_false]
        rw [ih hb2 fuel (by simp at hf ⊢; omega)]

/-- `bestEffortDecode` inverts `PathEscape` on any segment of genuine
bytes. -/
theorem bestEffortDecode_pathEscape (s : GoStr) (hb : ∀ c ∈ s, c < 256) :
    bestEffortDecode (pathEscape s) = s :=
  bestEffortDecodeF_pathEscape s hb (pathEscape s).length le_rfl

/-- The split loop of `PathSegments` accumulates a slash-free chunk. -/
theorem splitSegsAux_append (E : GoStr) (hE : ∀ c ∈ E, c ≠ 47) :
    ∀ cur rest, splitSegsAux cur (E ++ rest) = splitSegsAux (cur ++ E) rest := by
  induction E with
  | nil => intro cur rest; simp
  | cons c E ih =>
    intro cur rest
    have hc : c ≠ 47 := hE c (List.mem_cons_self c E)
    rw [List.cons_append]
    show splitSegsAux cur (c :: (E ++ rest)) = _
    rw [splitSegsAux.eq_def]
    simp only [if_neg (by simp [hc] : ¬((c == 47) = true))]
    rw [ih (fun x hx => hE x (List.mem_cons_of_mem c hx))]
    simp [List.append_assoc]

/-- The split loop of `PathSegments` emits the accumulated chunk at a
slash. -/
theorem splitSegsAux_slash (cur rest : GoStr) :
    splitSegsAux cur (47 :: rest) =
      bestEffortDecode cur :: splitSegsAux [] rest := by
  rw [splitSegsAux.eq_def]
  simp

/-- Splitting the raw path built by `SetPathSegments` (without its leading
slash) recovers the segments. -/
theorem splitSegs_roundtrip :
    ∀ rest s, (∀ c ∈ s, c < 256) → (∀ t ∈ rest, ∀ c ∈ t, c < 256) →
      splitSegsAux []
        (pathEscape s ++ (rest.flatMap fun t => 47 :: pathEscape t) ++
          (if (s :: rest).getLast? == some [] then [47] else [])) =
      s :: rest := by
  intro rest
  induction rest with
  | nil =>
    intro s hs _
    simp only [List.flatMap_nil, List.append_nil]
    by_cases hse : s = []
    · subst hse
      decide
    · rw [if_neg (by simp [List.getLast?, hse]), List.append_nil]
      have h0 := splitSegsAux_append (pathEscape s) (pathEscape_no_slash s)
        [] []
      rw [List.append_nil] at h0
      rw [h0, splitSegsAux.eq_def]
      simp only [List.nil_append,
        if_neg (by simp [pathEscape_ne_nil hse] :
          ¬((pathEscape s == []) = true))]
      rw [bestEffortDecode_pathEscape s hs]
  | cons t rest2 ih =>
    intro s hs hrest
    have ht : ∀ c ∈ t, c < 256 := hrest t (List.mem_cons_self t rest2)
    have hrest2 : ∀ x ∈ rest2, ∀ c ∈ x, c < 256 :=
      fun x hx => hrest x (List.mem_cons_of_mem t hx)
    have hlast : ((s :: t :: rest2).getLast? == some ([] : GoStr)) =
        ((t :: rest2).getLast? == some ([] : GoStr)) := by
      rw [List.getLast?_cons_cons]
    rw [hlast, List.flatMap_cons]
    have hshape :
        pathEscape s ++
            ((47 :: pathEscape t) ++ rest2.flatMap fun x => 47 :: pathEscape x)
              ++ (if (t :: rest2).getLast? == some [] then [47] else []) =
        pathEscape s ++ 47 ::
          (pathEscape t ++ (rest2.flatMap fun x => 47 :: pathEscape x) ++
            (if (t :: rest2).getLast? == some [] then [47] else [])) := by
      simp [List.append_assoc]
    rw [hshape,
      splitSegsAux_append (pathEscape s) (pathEscape_no_slash s) [] _,
      List.nil_append, splitSegsAux_slash,
      bestEffortDecode_pathEscape s hs, ih t ht hrest2]

/-- C9: setting a non-empty list of path segments (sequences of genuine
bytes, including empty segments and segments holding `'/'` or `'%'`) and
reading them back returns exactly the original list. -/
theorem c9_segments_roundtrip (u : URL) (segs : List GoStr) (hne : segs ≠ [])
    (hb : ∀ t ∈ segs, ∀ c ∈ t, c < 256) :
    URL.PathSegments (URL.SetPathSegments u segs) = segs := by
  rcases segs with _ | ⟨s, rest⟩
  · exact absurd rfl hne
  have hs : ∀ c ∈ s, c < 256 := hb s (List.mem_cons_self s rest)
  have hrest : ∀ t ∈ rest, ∀ c ∈ t, c < 256 :=
    fun t ht => hb t (List.mem_cons_of_mem s ht)
  unfold URL.SetPathSegments
  rw [if_neg (by simp)]
  have hshape :
      ((s :: rest).flatMap fun t => 47 :: pathEscape t) ++
          (if (s :: rest).getLast? == some [] then [47] else []) =
      47 :: (pathEscape s ++ (rest.flatMap fun t => 47 :: pathEscape t) ++
        (if (s :: rest).getLast? == some [] then [47] else [])) := by
    rw [List.flatMap_cons]
    simp [List.append_assoc]
  rw [hshape]
  unfold URL.PathSegments
  rw [if_neg (by simp)]
  rw [if_pos (by simp)]
  simp only [List.drop_succ_cons, List.drop_zero]
  exact splitSegs_roundtrip rest s hs hrest

/-- C9 witness: the round trip on the segments `"a"`, `""`, `"/%"` (with an
empty middle segment and a slash and percent in the last one). -/
theorem c9_segments_roundtrip_witness :
    URL.PathSegments (URL.SetPathSegments ⟨⟨[97], [98]⟩, [], [], []⟩
      [[97], [], [47, 37]]) = [[97], [], [47, 37]] :=
  c9_segments_roundtrip ⟨⟨[97], [98]⟩, [], [], []⟩ [[97], [], [47, 37]]
    (by decide) (by decide)

/-- A successful fragment loop leaves the other components untouched and
produces exactly the accumulated bytes plus the remaining input. -/
theorem fragLoop_concat (s : GoStr) (d : DID) (rp rq : GoStr) :
    ∀ i acc rest u, fragLoop s d rp rq i acc rest = .ok u →
      u = ⟨d, rp, rq, acc ++ rest⟩ := by
  intro i acc rest
  induction i, acc, rest using fragLoop.induct s d rp rq with
  | case1 i acc =>
    intro u h
    rw [fragLoop.eq_def] at h
    simp only [] at h
    cases h
    simp
  | case2 i acc c rest hq ih =>
    intro u h
    rw [fragLoop.eq_def] at h
    simp only [hq, if_true] at h
    rw [ih u h]
    simp
  | case3 i acc c hq h37 =>
    intro u h
    rw [fragLoop.eq_def] at h
    simp [hq, h37] at h
  | case4 i acc c hq h37 h1 hn1 =>
    intro u h
    rw [fragLoop.eq_def] at h
    simp [hq, h37, hn1] at h
  | case5 i acc c hq h37 h1 v hn1 =>
    intro u h
    rw [fragLoop.eq_def] at h
    simp [hq, h37, hn1] at h
  | case6 i acc c hq h37 h1 h2 rest2 hn1 =>
    intro u h
    rw [fragLoop.eq_def] at h
    simp [hq, h37, hn1] at h
  | case7 i acc c hq h37 h1 h2 rest2 hi hn1 hn2 =>
    intro u h
    rw [fragLoop.eq_def] at h
    simp [hq, h37, hn1, hn2] at h
  | case8 i acc c hq h37 h1 h2 rest2 hi hn1 lo hn2 ih =>
    intro u h
    rw [fragLoop.eq_def] at h
    simp only [hq, h37, hn1, hn2, Bool.false_eq_true, if_false,
      if_true] at h
    have hc : c = 37 := by simpa using h37
    subst hc
    rw [ih u h]
    simp
  | case9 i acc c rest hq h37 =>
    intro u h
    rw [fragLoop.eq_def] at h
    simp [hq, h37] at h

/-- A successful query loop keeps the DID and raw path and splits the
accumulated bytes plus the remaining input between query and fragment. -/
theorem queryLoop_concat (s : GoStr) (d : DID) (rp : GoStr) :
    ∀ i acc rest u, queryLoop s d rp i acc rest = .ok u →
      u.did = d ∧ u.RawPath = rp ∧
        u.RawQuery ++ u.RawFragment = acc ++ rest := by
  intro i acc rest
  induction i, acc, rest using queryLoop.induct s d rp with
  | case1 i acc =>
    intro u h
    rw [queryLoop.eq_def] at h
    simp only [] at h
    cases h
    simp
  | case2 i acc c rest h35 =>
    intro u h
    rw [queryLoop.eq_def] at h
    simp only [h35, if_true] at h
    have hc : c = 35 := by simpa using h35
    subst hc
    rw [fragLoop_concat s d rp acc (i + 1) [35] rest u h]
    simp
  | case3 i acc c rest h35 hq ih =>
    intro u h
    rw [queryLoop.eq_def] at h
    simp only [h35, Bool.false_eq_true, if_false, hq, if_true] at h
    obtain ⟨h1, h2, h3⟩ := ih u h
    refine ⟨h1, h2, ?_⟩
    rw [h3]
    simp
  | case4 i acc c h35 hq h37 =>
    intro u h
    rw [queryLoop.eq_def] at h
    simp [h35, hq, h37] at h
  | case5 i acc c h35 hq h37 h1 hn1 =>
    intro u h
    rw [queryLoop.eq_def] at h
    simp [h35, hq, h37, hn1] at h
  | case6 i acc c h35 hq h37 h1 v hn1 =>
    intro u h
    rw [queryLoop.eq_def] at h
    simp [h35, hq, h37, hn1] at h
  | case7 i acc c h35 hq h37 h1 h2 rest2 hn1 =>
    intro u h
    rw [queryLoop.eq_def] at h
    simp [h35, hq, h37, hn1] at h
  | case8 i acc c h35 hq h37 h1 h2 rest2 hi hn1 hn2 =>
    intro u h
    rw [queryLoop.eq_def] at h
    simp [h35, hq, h37, hn1, hn2] at h
  | case9 i acc c h35 hq h37 h1 h2 rest2 hi hn1 lo hn2 ih =>
    intro u h
    rw [queryLoop.eq_def] at h
    simp only [h35, hq, h37, hn1, hn2, Bool.false_eq_true, if_false,
      if_true] at h
    have hc : c = 37 := by simpa using h37
    subst hc
    obtain ⟨h1x, h2x, h3x⟩ := ih u h
    refine ⟨h1x, h2x, ?_⟩
    rw [h3x]
    simp
  | case10 i acc c rest h35 hq h37 =>
    intro u h
    rw [queryLoop.eq_def] at h
    simp [h35, hq, h37] at h

/-- A successful path loop keeps the DID, and its three raw components
concatenate to the accumulated bytes plus the remaining input. -/
theorem pathLoop_concat (s : GoStr) (d : DID) :
    ∀ i acc rest u, pathLoop s d i acc rest = .ok u →
      u.did = d ∧
        u.RawPath ++ u.RawQuery ++ u.RawFragment = acc ++ rest := by
  intro i acc rest
  induction i, acc, rest using pathLoop.induct s d with
  | case1 i acc =>
    intro u h
    rw [pathLoop.eq_def] at h
    simp only [] at h
    cases h
    simp
  | case2 i acc c rest hp ih =>
    intro u h
    rw [pathLoop.eq_def] at h
    simp only [hp, if_true] at h
    obtain ⟨h1, h2⟩ := ih u h
    refine ⟨h1, ?_⟩
    rw [h2]
    simp
  | case3 i acc c hp h37 =>
    intro u h
    rw [pathLoop.eq_def] at h
    simp [hp, h37] at h
  | case4 i acc c hp h37 h1 hn1 =>
    intro u h
    rw [pathLoop.eq_def] at h
    simp [hp, h37, hn1] at h
  | case5 i acc c hp h37 h1 v hn1 =>
    intro u h
    rw [pathLoop.eq_def] at h
    simp [hp, h37, hn1] at h
  | case6 i acc c hp h37 h1 h2 rest2 hn1 =>
    intro u h
    rw [pathLoop.eq_def] at h
    simp [hp, h37, hn1] at h
  | case7 i acc c hp h37 h1 h2 rest2 hi hn1 hn2 =>
    intro u h
    rw [pathLoop.eq_def] at h
    simp [hp, h37, hn1, hn2] at h
  | case8 i acc c hp h37 h1 h2 rest2 hi hn1 lo hn2 ih =>
    intro u h
    rw [pathLoop.eq_def] at h
    simp only [hp, h37, hn1, hn2, Bool.false_eq_true, if_false,
      if_true] at h
    have hc : c = 37 := by simpa using h37
    subst hc
    obtain ⟨h1x, h2x⟩ := ih u h
    refine ⟨h1x, ?_⟩
    rw [h2x]
    simp
  | case9 i acc c rest hp h37 h63 =>
    intro u h
    rw [pathLoop.eq_def] at h
    simp only [hp, h37, h63, Bool.false_eq_true, if_false, if_true] at h
    have hc : c = 63 := by simpa using h63
    subst hc
    obtain ⟨h1x, h2x, h3x⟩ := queryLoop_concat s d acc (i + 1) [63] rest u h
    refine ⟨h1x, ?_⟩
    rw [h2x, List.append_assoc, h3x]
    simp
  | case10 i acc c rest hp h37 h63 h35 =>
    intro u h
    rw [pathLoop.eq_def] at h
    simp only [hp, h37, h63, h35, Bool.false_eq_true, if_false,
      if_true] at h
    have hc : c = 35 := by simpa using h35
    subst hc
    rw [fragLoop_concat s d acc [] (i + 1) [35] rest u h]
    simp
  | case11 i acc c rest hp h37 h63 h35 =>
    intro u h
    rw [pathLoop.eq_def] at h
    simp [hp, h37, h63, h35] at h

/-- A successful fragment loop does not depend on the error-reporting
arguments: the same result arises for any original input and start index. -/
theorem fragLoop_irrel (s : GoStr) (d : DID) (rp rq : GoStr) :
    ∀ i acc rest u, fragLoop s d rp rq i acc rest = .ok u →
      ∀ s2 i2, fragLoop s2 d rp rq i2 acc rest = .ok u := by
  intro i acc rest
  induction i, acc, rest using fragLoop.induct s d rp rq with
  | case1 i acc =>
    intro u h s2 i2
    rw [fragLoop.eq_def] at h
    rw [fragLoop.eq_def]
    simp only [] at h ⊢
    exact h
  | case2 i acc c rest hq ih =>
    intro u h s2 i2
    rw [fragLoop.eq_def] at h
    simp only [hq, if_true] at h
    rw [fragLoop.eq_def]
    simp only [hq, if_true]
    exact ih u h s2 (i2 + 1)
  | case3 i acc c hq h37 =>
    intro u h s2 i2
    rw [fragLoop.eq_def] at h
    simp [hq, h37] at h
  | case4 i acc c hq h37 h1 hn1 =>
    intro u h s2 i2
    rw [fragLoop.eq_def] at h
    simp [hq, h37, hn1] at h
  | case5 i acc c hq h37 h1 v hn1 =>
    intro u h s2 i2
    rw [fragLoop.eq_def] at h
    simp [hq, h37, hn1] at h
  | case6 i acc c hq h37 h1 h2 rest2 hn1 =>
    intro u h s2 i2
    rw [fragLoop.eq_def] at h
    simp [hq, h37, hn1] at h
  | case7 i acc c hq h37 h1 h2 rest2 hi hn1 hn2 =>
    intro u h s2 i2
    rw [fragLoop.eq_def] at h
    simp [hq, h37, hn1, hn2] at h
  | case8 i acc c hq h37 h1 h2 rest2 hi hn1 lo hn2 ih =>
    intro u h s2 i2
    rw [fragLoop.eq_def] at h
    simp only [hq, h37, hn1, hn2, Bool.false_eq_true, if_false,
      if_true] at h
    rw [fragLoop.eq_def]
    simp only [hq, h37, hn1, hn2, Bool.false_eq_true, if_false, if_true]
    exact ih u h s2 (i2 + 3)
  | case9 i acc c rest hq h37 =>
    intro u h s2 i2
    rw [fragLoop.eq_def] at h
    simp [hq, h37] at h

/-- A successful query loop does not depend on the error-reporting
arguments. -/
theorem queryLoop_irrel (s : GoStr) (d : DID) (rp : GoStr) :
    ∀ i acc rest u, queryLoop s d rp i acc rest = .ok u →
      ∀ s2 i2, queryLoop s2 d rp i2 acc rest = .ok u := by
  intro i acc rest
  induction i, acc, rest using queryLoop.induct s d rp with
  | case1 i acc =>
    intro u h s2 i2
    rw [queryLoop.eq_def] at h
    rw [queryLoop.eq_def]
    simp only [] at h ⊢
    exact h
  | case2 i acc c rest h35 =>
    intro u h s2 i2
    rw [queryLoop.eq_def] at h
    simp only [h35, if_true] at h
    rw [queryLoop.eq_def]
    simp only [h35, if_true]
    exact fragLoop_irrel s d rp acc (i + 1) [35] rest u h s2 (i2 + 1)
  | case3 i acc c rest h35 hq ih =>
    intro u h s2 i2
    rw [queryLoop.eq_def] at h
    simp only [h35, Bool.false_eq_true, if_false, hq, if_true] at h
    rw [queryLoop.eq_def]
    simp only [h35, Bool.false_eq_true, if_false, hq, if_true]
    exact ih u h s2 (i2 + 1)
  | case4 i acc c h35 hq h37 =>
    intro u h s2 i2
    rw [queryLoop.eq_def] at h
    simp [h35, hq, h37] at h
  | case5 i acc c h35 hq h37 h1 hn1 =>
    intro u h s2 i2
    rw [queryLoop.eq_def] at h
    simp [h35, hq, h37, hn1] at h
  | case6 i acc c h35 hq h37 h1 v hn1 =>
    intro u h s2 i2
    rw [queryLoop.eq_def] at h
    simp [h35, hq, h37, hn1] at h
  | case7 i acc c h35 hq h37 h1 h2 rest2 hn1 =>
    intro u h s2 i2
    rw [queryLoop.eq_def] at h
    simp [h35, hq, h37, hn1] at h
  | case8 i acc c h35 hq h37 h1 h2 rest2 hi hn1 hn2 =>
    intro u h s2 i2
    rw [queryLoop.eq_def] at h
    simp [h35, hq, h37, hn1, hn2] at h
  | case9 i acc c h35 hq h37 h1 h2 rest2 hi hn1 lo hn2 ih =>
    intro u h s2 i2
    rw [queryLoop.eq_def] at h
    simp only [h35, hq, h37, hn1, hn2, Bool.false_eq_true, if_false,
      if_true] at h
    rw [queryLoop.eq_def]
    simp only [h35, hq, h37, hn1, hn2, Bool.false_eq_true, if_false,
      if_true]
    exact ih u h s2 (i2 + 3)
  | case10 i acc c rest h35 hq h37 =>
    intro u h s2 i2
    rw [queryLoop.eq_def] at h
    simp [h35, hq, h37] at h

/-- A successful path loop does not depend on the error-reporting
arguments. -/
theorem pathLoop_irrel (s : GoStr) (d : DID) :
    ∀ i acc rest u, pathLoop s d i acc rest = .ok u →
      ∀ s2 i2, pathLoop s2 d i2 acc rest = .ok u := by
  intro i acc rest
  induction i, acc, rest using pathLoop.induct s d with
  | case1 i acc =>
    intro u h s2 i2
    rw [pathLoop.eq_def] at h
    rw [pathLoop.eq_def]
    simp only [] at h ⊢
    exact h
  | case2 i acc c rest hp ih =>
    intro u h s2 i2
    rw [pathLoop.eq_def] at h
    simp only [hp, if_true] at h
    rw [pathLoop.eq_def]
    simp only [hp, if_true]
    exact ih u h s2 (i2 + 1)
  | case3 i acc c hp h37 =>
    intro u h s2 i2
    rw [pathLoop.eq_def] at h
    simp [hp, h37] at h
  | case4 i acc c hp h37 h1 hn1 =>
    intro u h s2 i2
    rw [pathLoop.eq_def] at h
    simp [hp, h37, hn1] at h
  | case5 i acc c hp h37 h1 v hn1 =>
    intro u h s2 i2
    rw [pathLoop.eq_def] at h
    simp [hp, h37, hn1] at h
  | case6 i acc c hp h37 h1 h2 rest2 hn1 =>
    intro u h s2 i2
    rw [pathLoop.eq_def] at h
    simp [hp, h37, hn1] at h
  | case7 i acc c hp h37 h1 h2 rest2 hi hn1 hn2 =>
    intro u h s2 i2
    rw [pathLoop.eq_def] at h
    simp [hp, h37, hn1, hn2] at h
  | case8 i acc c hp h37 h1 h2 rest2 hi hn1 lo hn2 ih =>
    intro u h s2 i2
    rw [pathLoop.eq_def] at h
    simp only [hp, h37, hn1, hn2, Bool.false_eq_true, if_false,
      if_true] at h
    rw [pathLoop.eq_def]
    simp only [hp, h37, hn1, hn2, Bool.false_eq_true, if_false, if_true]
    exact ih u h s2 (i2 + 3)
  | case9 i acc c rest hp h37 h63 =>
    intro u h s2 i2
    rw [pathLoop.eq_def] at h
    simp only [hp, h37, h63, Bool.false_eq_true, if_false, if_true] at h
    rw [pathLoop.eq_def]
    simp only [hp, h37, h63, Bool.false_eq_true, if_false, if_true]
    exact queryLoop_irrel s d acc (i + 1) [63] rest u h s2 (i2 + 1)
  | case10 i acc c rest hp h37 h63 h35 =>
    intro u h s2 i2
    rw [pathLoop.eq_def] at h
    simp only [hp, h37, h63, h35, Bool.false_eq_true, if_false,
      if_true] at h
    rw [pathLoop.eq_def]
    simp only [hp, h37, h63, h35, Bool.false_eq_true, if_false, if_true]
    exact fragLoop_irrel s d acc [] (i + 1) [35] rest u h s2 (i2 + 1)
  | case11 i acc c rest hp h37 h63 h35 =>
    intro u h s2 i2
    rw [pathLoop.eq_def] at h
    simp [hp, h37, h63, h35] at h

/-- `strings.IndexAny` returns none when no byte of the set occurs. -/
theorem indexAnyAux_none (cs : List Nat) :
    ∀ rest i, (∀ c ∈ rest, cs.contains c = false) →
      indexAnyAux cs i rest = none := by
  intro rest
  induction rest with
  | nil => intro i _; rfl
  | cons c rest ih =>
    intro i hall
    simp only [indexAnyAux, hall c (List.mem_cons_self c rest),
      Bool.false_eq_true, if_false]
    exact ih (i + 1) (fun x hx => hall x (List.mem_cons_of_mem c hx))

/-- `strings.IndexAny` skips over a chunk without any byte of the set. -/
theorem indexAnyAux_append (cs : List Nat) :
    ∀ (A : GoStr), (∀ c ∈ A, cs.contains c = false) →
      ∀ i rest, indexAnyAux cs i (A ++ rest) =
        indexAnyAux cs (i + A.length) rest := by
  intro A
  induction A with
  | nil => intro _ i rest; simp
  | cons c A ih =>
    intro hA i rest
    rw [List.cons_append]
    simp only [indexAnyAux, hA c (List.mem_cons_self c A),
      Bool.false_eq_true, if_false]
    rw [ih (fun x hx => hA x (List.mem_cons_of_mem c hx)) (i + 1) rest]
    have ha : i + 1 + A.length = i + (c :: A).length := by
      simp only [List.length_cons]
      omega
    rw [ha]

/-- A hit of `strings.IndexAny` points at a byte of the set. -/
theorem indexAnyAux_mem (cs : List Nat) :
    ∀ rest i j, indexAnyAux cs i rest = some j →
      i ≤ j ∧ ∃ b rest2, rest.drop (j - i) = b :: rest2 ∧
        cs.contains b = true := by
  intro rest
  induction rest with
  | nil => intro i j h; simp [indexAnyAux] at h
  | cons c rest ih =>
    intro i j h
    simp only [indexAnyAux] at h
    by_cases hc : cs.contains c = true
    · rw [if_pos hc] at h
      obtain rfl : i = j := by cases h; rfl
      exact ⟨le_rfl, c, rest, by simp, hc⟩
    · rw [if_neg hc] at h
      obtain ⟨hij, b, rest2, hdrop, hb⟩ := ih (i + 1) j h
      refine ⟨by omega, b, rest2, ?_, hb⟩
      have hk : j - i = (j - (i + 1)) + 1 := by omega
      rw [hk, List.drop_succ_cons]
      exact hdrop

/-- The serialization of a DID with a non-empty method takes the canonical
scheme-method-colon-specid shape. -/
theorem DIDString_eq {d : DID} (hM : d.Method ≠ []) :
    DID.String d = didScheme ++ d.Method ++ [58] ++ specEncode d.SpecID := by
  unfold DID.String
  rw [if_neg (by simp [hM])]

/-- The serialization of a DID with a non-empty method is non-empty. -/
theorem DIDString_ne_nil {d : DID} (hM : d.Method ≠ []) :
    DID.String d ≠ [] := by
  rw [DIDString_eq hM]
  simp [didScheme]

/-- Anything starting with the four scheme bytes passes the scheme check. -/
theorem hasScheme_append (x : GoStr) : hasScheme (didScheme ++ x) = true := by
  simp [hasScheme, didScheme]

/-- The hex table yields digits `0-9A-F` (or the out-of-range default). -/
theorem hexTableF_range (n : Nat) :
    (48 ≤ hexTableF n ∧ hexTableF n ≤ 57) ∨
      (65 ≤ hexTableF n ∧ hexTableF n ≤ 70) ∨ hexTableF n = 0 := by
  by_cases h : n < 16
  · interval_cases n <;> decide
  · right; right
    unfold hexTableF
    rw [List.getD_eq_default]
    simp only [hexTableList, List.length]
    omega

/-- An `idchar` byte is never one of the URL delimiters `/ ? #`. -/
theorem idChar_notDelim {c : Nat} (h : isIdChar c = true) :
    c ≠ 47 ∧ c ≠ 63 ∧ c ≠ 35 := by
  simp only [isIdChar, isDigitB, isLowerB, isUpperB, Bool.or_eq_true,
    Bool.and_eq_true, decide_eq_true_eq] at h
  omega

/-- No byte of a canonical DID serialization is a URL delimiter
(`'/'`, `'?'` or `'#'`). -/
theorem DIDString_noDelim (d : DID)
    (hMc : d.Method.all isMethodChar = true) :
    ∀ c ∈ DID.String d, ([47, 63, 35] : List Nat).contains c = false := by
  intro c hc
  unfold DID.String at hc
  split_ifs at hc with hz
  · simp at hc
  · simp only [List.append_assoc, List.mem_append] at hc
    rcases hc with h | h | h | h
    · simp only [didScheme, List.mem_cons, List.not_mem_nil, or_false] at h
      rcases h with rfl | rfl | rfl | rfl <;> decide
    · have hm : isMethodChar c = true := by
        rw [List.all_eq_true] at hMc
        exact hMc c h
      rw [methodChar_iff] at hm
      simp only [List.contains_cons, List.contains_nil, Bool.or_eq_false_iff,
        beq_eq_false_iff_ne, ne_eq]
      refine ⟨?_, ?_, ?_, trivial⟩ <;> omega
    · simp only [List.mem_cons, List.not_mem_nil, or_false] at h
      subst h
      decide
    · rw [specEncode, List.mem_flatMap] at h
      obtain ⟨a, _, hmem⟩ := h
      unfold escapeSpecChar at hmem
      split_ifs at hmem with hid
      · simp only [List.mem_cons, List.not_mem_nil, or_false] at hmem
        subst hmem
        obtain ⟨h1, h2, h3⟩ := idChar_notDelim hid
        simp only [List.contains_cons, List.contains_nil,
          Bool.or_eq_false_iff, beq_eq_false_iff_ne, ne_eq]
        exact ⟨h1, h2, h3, trivial⟩
      · simp only [List.mem_cons, List.not_mem_nil, or_false] at hmem
        have hr1 := hexTableF_range (a / 16)
        have hr2 := hexTableF_range (a % 16)
        simp only [List.contains_cons, List.contains_nil,
          Bool.or_eq_false_iff, beq_eq_false_iff_ne, ne_eq]
        rcases hmem with rfl | rfl | rfl
        · exact ⟨by omega, by omega, by omega, trivial⟩
        · exact ⟨by omega, by omega, by omega, trivial⟩
        · exact ⟨by omega, by omega, by omega, trivial⟩

/-- A canonical DID serialization passes `ParseURL`'s scheme check. -/
theorem hasScheme_DIDString {d : DID} (hM : d.Method ≠ []) :
    hasScheme (DID.String d) = true := by
  rw [DIDString_eq hM, List.append_assoc, List.append_assoc]
  exact hasScheme_append _

/-- A canonical DID serialization plus any tail passes the scheme check. -/
theorem hasScheme_DIDString_append {d : DID} (hM : d.Method ≠ [])
    (x : GoStr) : hasScheme (DID.String d ++ x) = true := by
  rw [DIDString_eq hM, List.append_assoc, List.append_assoc,
    List.append_assoc]
  exact hasScheme_append _

/-- A canonical DID serialization holds no URL delimiter. -/
theorem indexAny_DIDString (d : DID)
    (hMc : d.Method.all isMethodChar = true) :
    indexAny (DID.String d) [47, 63, 35] = none :=
  indexAnyAux_none [47, 63, 35] (DID.String d) 0 (DIDString_noDelim d hMc)

/-- C10: parsing the canonical serialization of any successfully parsed URL
succeeds and returns the same URL value (DID, raw path, raw query and raw
fragment) — including for relative references, whose serialization is the
original input itself. -/
theorem c10_url_roundtrip (s : GoStr) (u : URL) (h : ParseURL s = .ok u) :
    ParseURL (URL.String u) = .ok u := by
  unfold ParseURL at h
  by_cases hnil : (s == []) = true
  · rw [if_pos hnil] at h
    cases h
  · rw [if_neg hnil] at h
    by_cases hsch : hasScheme s = true
    · rw [if_pos hsch] at h
      rcases hidx : indexAny s [47, 63, 35] with _ | i <;>
        simp only [hidx] at h
      · rcases hps : Parse s with e | d <;> simp only [hps] at h
        · cases h
        · cases h
          obtain ⟨hM, hMc, hS, hSb⟩ := Parse_ok_valid hps
          have hstr : URL.String ⟨d, [], [], []⟩ = DID.String d := by
            simp [URL.String]
          rw [hstr]
          unfold ParseURL
          rw [if_neg (by simp [DIDString_ne_nil hM])]
          rw [if_pos (hasScheme_DIDString hM)]
          simp only [indexAny_DIDString d hMc]
          simp only [parse_string_of_valid d hM hMc hS hSb]
      · rcases hps : Parse (s.take i) with e | d <;> simp only [hps] at h
        · cases h
        · obtain ⟨hM, hMc, hS, hSb⟩ := Parse_ok_valid hps
          obtain ⟨hdid, hconcat⟩ := pathLoop_concat s d i [] (s.drop i) u h
          rw [List.nil_append] at hconcat
          obtain ⟨_, b, rest2, hdrop, hb⟩ :=
            indexAnyAux_mem [47, 63, 35] s 0 i hidx
          rw [Nat.sub_zero] at hdrop
          have hstr : URL.String u = DID.String d ++ s.drop i := by
            unfold URL.String
            rw [hdid, ← hconcat]
            simp [List.append_assoc]
          rw [hstr]
          unfold ParseURL
          rw [if_neg (by simp [DIDString_ne_nil hM])]
          rw [if_pos (hasScheme_DIDString_append hM (s.drop i))]
          have hia : indexAny (DID.String d ++ s.drop i) [47, 63, 35] =
              some (DID.String d).length := by
            unfold indexAny
            rw [indexAnyAux_append [47, 63, 35] (DID.String d)
              (DIDString_noDelim d hMc) 0 (s.drop i), hdrop]
            simp only [indexAnyAux]
            rw [if_pos hb]
            simp
          simp only [hia]
          rw [List.take_left]
          simp only [parse_string_of_valid d hM hMc hS hSb]
          rw [List.drop_left]
          exact pathLoop_irrel s d i [] (s.drop i) u h _ _
    · rw [if_neg hsch] at h
      rcases hrc : relColonCheck s 0 s with _ | e <;> simp only [hrc] at h
      · obtain ⟨hdid, hconcat⟩ := pathLoop_concat s ⟨[], []⟩ 0 [] s u h
        rw [List.nil_append] at hconcat
        have hstr : URL.String u = s := by
          unfold URL.String
          rw [hdid]
          rw [show DID.String ⟨[], []⟩ = ([] : GoStr) from rfl]
          rw [List.nil_append]
          exact hconcat
        rw [hstr]
        unfold ParseURL
        rw [if_neg hnil, if_neg hsch]
        simp only [hrc]
        exact h
      · cases h

/-- C10 witness: the round trip on the parse of `"did:a:b/x?q#f"`. -/
theorem c10_url_roundtrip_witness :
    ParseURL (URL.String ⟨⟨[97], [98]⟩, [47, 120], [63, 113], [35, 102]⟩) =
      .ok ⟨⟨[97], [98]⟩, [47, 120], [63, 113], [35, 102]⟩ :=
  c10_url_roundtrip
    [100, 105, 100, 58, 97, 58, 98, 47, 120, 63, 113, 35, 102]
    ⟨⟨[97], [98]⟩, [47, 120], [63, 113], [35, 102]⟩ (by decide)
